import Mathlib

/-!
# Alternative path search for MLD: the meeting-point search and candidate harvesting

A shallow embedding of `alternativePathSearch`
(`src/engine/routing_algorithms/alternative_path_mld.cpp`) together with the
properties of its search loop, its candidate list and its result.

The function drives two query heaps through `mld::routingStep`.  The heap class,
the routing step and the seeding of the heaps are declared in other files; they
enter the embedding as the fields of `Collaborators`, so that every statement
below holds for any heap implementation and any routing step (or for those that
meet an explicitly stated contract).
-/

namespace osrm

/-- Vertex identifiers (`NodeID`, an unsigned 32-bit integer in the code). -/
abbrev NodeID := Nat

/-- Edge weights (`EdgeWeight`, a signed 32-bit integer in the code). -/
abbrev EdgeWeight := Int

/-- Modelled from the spec: the reserved vertex identifier meaning "no vertex"; the
constant is declared outside `alternative_path_mld.cpp`, where it is the largest unsigned
32-bit value, `2 ^ 32 - 1`. -/
def SPECIAL_NODEID : NodeID := 4294967295

/-- Modelled from the spec: the reserved "unknown / infinite" weight; the constant is
declared outside `alternative_path_mld.cpp`, where it is the largest signed 32-bit value,
`2 ^ 31 - 1`. -/
def INVALID_EDGE_WEIGHT : EdgeWeight := 2147483647

/-! ## Candidate deduplication (`std::sort`, `std::unique`, `erase`) -/

/-- `std::sort(begin(candidates), end(candidates))`: ascending order. -/
def sort (candidates : List NodeID) : List NodeID :=
  candidates.insertionSort (· ≤ ·)

/-- The scan of `std::unique`: `last` is the element kept most recently; an element
equal to it is skipped, any other element is kept and becomes the new `last`. -/
def uniqueAux (last : NodeID) : List NodeID → List NodeID
  | [] => []
  | y :: rest => if last = y then uniqueAux last rest else y :: uniqueAux y rest

/-- `std::unique` followed by `erase(it, end)`: the kept part of the vector, in which
every run of adjacent equal elements is collapsed to one element. -/
def unique : List NodeID → List NodeID
  | [] => []
  | x :: rest => x :: uniqueAux x rest

/-- Lines 110-112: sort the raw candidates, collapse adjacent duplicates, erase the tail. -/
def dedup (candidates : List NodeID) : List NodeID :=
  unique (sort candidates)

/-! ## The collaborators of the search -/

/-- The template argument of `mld::routingStep`. -/
inductive Direction
  | FORWARD_DIRECTION
  | REVERSE_DIRECTION
deriving DecidableEq

/-- What one call of `mld::routingStep` leaves behind: the heap passed first (the
active one), the heap passed second, and the two variables passed by reference. -/
structure StepResult (Heap : Type) where
  active : Heap
  other : Heap
  middle : NodeID
  weight : EdgeWeight

/-- The code outside `alternative_path_mld.cpp` that `alternativePathSearch` calls: the query
heap's `Size()` and `MinKey()`, and `mld::routingStep<DIRECTION>(facade, active, other,
middle, weight, force_loop_forward, force_loop_backward, phantom_node_pair)`.  The
facade, the two loop flags and the phantom nodes are constant during one query and
are part of the closure `routingStep`.  `MinKey` is total here; on an empty heap its
value is arbitrary.  Heap sizes are natural numbers: a heap holds each of the fewer
than `2 ^ 32` vertices at most once, so the `std::size_t` sum of two sizes is exact. -/
structure Collaborators (Heap : Type) where
  Size : Heap → Nat
  MinKey : Heap → EdgeWeight
  routingStep : Direction → Heap → Heap → NodeID → EdgeWeight → StepResult Heap

/-- Modelled from the spec: the heap's `Empty()` is declared outside `alternative_path_mld.cpp`;
a frontier is empty exactly when its size is zero. -/
def Collaborators.Empty {Heap : Type} (c : Collaborators Heap) (h : Heap) : Bool :=
  c.Size h == 0

/-! ## The search state and a record of the calls made -/

/-- One entry of the call record kept next to the program variables.  It does not
influence the computation.  `iteration` marks the entry into the loop body; `MinKey`
records a read of the minimum key of the heap of direction `dir`, with the value of
`Empty()` on that heap at the read; `routingStep` records a call of the routing step
with the value of `Empty()` on its active heap at the call and the values of `middle`
and `weight` it left behind. -/
inductive Event
  | iteration
  | MinKey (dir : Direction) (empty : Bool)
  | routingStep (dir : Direction) (empty : Bool) (middle : NodeID) (weight : EdgeWeight)
deriving DecidableEq

/-- The local variables of `alternativePathSearch`, the two heaps, and the call record. -/
structure SearchState (Heap : Type) where
  forward_heap : Heap
  reverse_heap : Heap
  middle : NodeID
  weight : EdgeWeight
  forward_heap_min : EdgeWeight
  reverse_heap_min : EdgeWeight
  candidates : List NodeID
  events : List Event

/-- Two's-complement wrap-around of a signed 32-bit result: the representative of `x`
modulo `2 ^ 32` in the range from `-2 ^ 31` to `2 ^ 31 - 1`. -/
def wrapInt32 (x : Int) : Int :=
  (x + 2147483648) % 4294967296 - 2147483648

/-- Line 61: `const auto search_space_overlap = 1.66;`, read as the rational 83/50. -/
def search_space_overlap : ℚ := mkRat 166 100

/-- Lines 54-66: the variables right before the loop, for the heaps as seeded by
`insertNodesInHeaps`. -/
def initialState {Heap : Type} (c : Collaborators Heap) (forward_heap reverse_heap : Heap) :
    SearchState Heap :=
  { forward_heap := forward_heap
    reverse_heap := reverse_heap
    middle := SPECIAL_NODEID
    weight := INVALID_EDGE_WEIGHT
    forward_heap_min := c.MinKey forward_heap
    reverse_heap_min := c.MinKey reverse_heap
    candidates := []
    events := [Event.MinKey Direction.FORWARD_DIRECTION (c.Empty forward_heap),
               Event.MinKey Direction.REVERSE_DIRECTION (c.Empty reverse_heap)] }

/-- Line 69: `forward_heap_min + reverse_heap_min < weight * search_space_overlap`.  The
sum is a 32-bit signed addition; the product and the comparison are exact: the
rational inequality `sum < weight * overlap` is decided after multiplying both sides
by the positive denominator of `overlap` (see `boundTest_iff`). -/
def boundTest (overlap : ℚ) (forward_heap_min reverse_heap_min weight : EdgeWeight) : Bool :=
  decide (wrapInt32 (forward_heap_min + reverse_heap_min) * (overlap.den : Int) <
    weight * overlap.num)

/-- Lines 68-69: the loop condition. -/
def loopGuard {Heap : Type} (c : Collaborators Heap) (overlap : ℚ) (s : SearchState Heap) :
    Bool :=
  decide (c.Size s.forward_heap + c.Size s.reverse_heap > 0) &&
    boundTest overlap s.forward_heap_min s.reverse_heap_min s.weight

/-- Lines 71-84: the forward half of the loop body. -/
def forwardHalf {Heap : Type} (c : Collaborators Heap) (s : SearchState Heap) :
    SearchState Heap :=
  if c.Empty s.forward_heap then s
  else
    let r := c.routingStep Direction.FORWARD_DIRECTION s.forward_heap s.reverse_heap
      s.middle s.weight
    let called := s.events ++
      [Event.routingStep Direction.FORWARD_DIRECTION (c.Empty s.forward_heap) r.middle r.weight]
    if c.Empty r.active then
      { s with forward_heap := r.active, reverse_heap := r.other, middle := r.middle,
               weight := r.weight, events := called }
    else
      { s with forward_heap := r.active, reverse_heap := r.other, middle := r.middle,
               weight := r.weight, forward_heap_min := c.MinKey r.active,
               events := called ++ [Event.MinKey Direction.FORWARD_DIRECTION (c.Empty r.active)] }

/-- Lines 86-99: the reverse half of the loop body. -/
def reverseHalf {Heap : Type} (c : Collaborators Heap) (s : SearchState Heap) :
    SearchState Heap :=
  if c.Empty s.reverse_heap then s
  else
    let r := c.routingStep Direction.REVERSE_DIRECTION s.reverse_heap s.forward_heap
      s.middle s.weight
    let called := s.events ++
      [Event.routingStep Direction.REVERSE_DIRECTION (c.Empty s.reverse_heap) r.middle r.weight]
    if c.Empty r.active then
      { s with reverse_heap := r.active, forward_heap := r.other, middle := r.middle,
               weight := r.weight, events := called }
    else
      { s with reverse_heap := r.active, forward_heap := r.other, middle := r.middle,
               weight := r.weight, reverse_heap_min := c.MinKey r.active,
               events := called ++ [Event.MinKey Direction.REVERSE_DIRECTION (c.Empty r.active)] }

/-- Lines 101-105: `if (middle != SPECIAL_NODEID) candidates.push_back(middle);`. -/
def pushCandidate {Heap : Type} (s : SearchState Heap) : SearchState Heap :=
  if s.middle ≠ SPECIAL_NODEID then { s with candidates := s.candidates ++ [s.middle] } else s

/-- Lines 70-106: one pass through the loop body. -/
def loopBody {Heap : Type} (c : Collaborators Heap) (s : SearchState Heap) : SearchState Heap :=
  pushCandidate (reverseHalf c (forwardHalf c { s with events := s.events ++ [Event.iteration] }))

/-- Lines 68-106: the `while` loop, run for at most `fuel` passes.  The result is the
state at which the loop condition is false, or `none` when the condition still holds
after `fuel` passes. -/
def searchLoop {Heap : Type} (c : Collaborators Heap) (overlap : ℚ) :
    Nat → SearchState Heap → Option (SearchState Heap)
  | 0, s => if loopGuard c overlap s then none else some s
  | fuel + 1, s => if loopGuard c overlap s then searchLoop c overlap fuel (loopBody c s) else some s

/-- Lines 43-114: the search loop followed by the deduplication of the candidates, with
the overlap factor as a parameter.  The two diagnostic prints of the candidate counts
are left out. -/
def harvestWith {Heap : Type} (c : Collaborators Heap) (overlap : ℚ) (fuel : Nat)
    (forward_heap reverse_heap : Heap) : Option (SearchState Heap) :=
  (searchLoop c overlap fuel (initialState c forward_heap reverse_heap)).map
    fun s => { s with candidates := dedup s.candidates }

/-- Lines 43-114 with the overlap factor of line 61: the state right before line 116. -/
def harvest {Heap : Type} (c : Collaborators Heap) (fuel : Nat)
    (forward_heap reverse_heap : Heap) : Option (SearchState Heap) :=
  harvestWith c search_space_overlap fuel forward_heap reverse_heap

/-- Modelled from the spec: a route of the result, with its vertex sequence and its
total weight; the type is declared outside `alternative_path_mld.cpp`. -/
structure Route where
  path : List NodeID
  weight : EdgeWeight
deriving DecidableEq

/-- Modelled from the spec: `InternalRouteResult`, declared outside `alternative_path_mld.cpp`, as
the ordered sequence of routes it carries (primary first); the value-initialised
result `{}` carries no route. -/
structure InternalRouteResult where
  routes : List Route := []
deriving DecidableEq

/-- Lines 116-119: both `return` statements. -/
def returnValue {Heap : Type} (s : SearchState Heap) : InternalRouteResult :=
  if s.weight = INVALID_EDGE_WEIGHT ∨ s.middle = SPECIAL_NODEID then {} else {}

/-- The function `alternativePathSearch` for the heaps as seeded in line 48: `none`
when the loop has not finished within `fuel` passes. -/
def alternativePathSearch {Heap : Type} (c : Collaborators Heap) (fuel : Nat)
    (forward_heap reverse_heap : Heap) : Option InternalRouteResult :=
  (harvest c fuel forward_heap reverse_heap).map returnValue

/-- The state after exactly `i` passes through the loop body, the loop condition having
held before each of them; `none` when the loop stops earlier. -/
def stateAfter {Heap : Type} (c : Collaborators Heap) (overlap : ℚ) :
    Nat → SearchState Heap → Option (SearchState Heap)
  | 0, s => some s
  | i + 1, s => if loopGuard c overlap s then stateAfter c overlap i (loopBody c s) else none

/-- The relaxation-step contract on which termination rests, over a finite graph:
`unsettled h` is the number of vertices that the direction of heap `h` has not settled
yet.  A step on a non-empty active heap settles one more vertex of its direction, and
no step makes a settled vertex of the other direction unsettled again. -/
structure StepContract {Heap : Type} (c : Collaborators Heap) (unsettled : Heap → Nat) :
    Prop where
  active : ∀ d a o m w, c.Empty a = false →
    unsettled (c.routingStep d a o m w).active < unsettled a
  other : ∀ d a o m w, unsettled (c.routingStep d a o m w).other ≤ unsettled o

/-- In the pass through the loop body that starts from state `s`, no relaxation step
reports an improving meeting: the forward step, when it runs (line 71), and the
reverse step, when it runs on the state left by the forward half (line 86), each
leave `middle` and `weight` as they found them. -/
def passReportsNoMeeting {Heap : Type} (c : Collaborators Heap) (s : SearchState Heap) : Prop :=
  (c.Empty s.forward_heap = false →
    (c.routingStep Direction.FORWARD_DIRECTION s.forward_heap s.reverse_heap
      s.middle s.weight).middle = s.middle ∧
    (c.routingStep Direction.FORWARD_DIRECTION s.forward_heap s.reverse_heap
      s.middle s.weight).weight = s.weight) ∧
  (c.Empty (forwardHalf c s).reverse_heap = false →
    (c.routingStep Direction.REVERSE_DIRECTION (forwardHalf c s).reverse_heap
      (forwardHalf c s).forward_heap (forwardHalf c s).middle
      (forwardHalf c s).weight).middle = (forwardHalf c s).middle ∧
    (c.routingStep Direction.REVERSE_DIRECTION (forwardHalf c s).reverse_heap
      (forwardHalf c s).forward_heap (forwardHalf c s).middle
      (forwardHalf c s).weight).weight = (forwardHalf c s).weight)

/-! ## Views of a run used by the ordering and push-on-change properties -/

/-- The directions of the routing-step calls of a call record, in call order. -/
def stepDirections : List Event → List Direction
  | [] => []
  | Event.routingStep dir _ _ _ :: rest => dir :: stepDirections rest
  | Event.iteration :: rest => stepDirections rest
  | Event.MinKey _ _ :: rest => stepDirections rest

/-- The values of `middle` at the end of the passes through the loop body (line 102),
in order, from state `s` on, for at most `fuel` passes. -/
def passMiddles {Heap : Type} (c : Collaborators Heap) (overlap : ℚ) :
    Nat → SearchState Heap → List NodeID
  | 0, _ => []
  | fuel + 1, s =>
    if loopGuard c overlap s then
      (loopBody c s).middle :: passMiddles c overlap fuel (loopBody c s)
    else []

/-- Lines 101-105 over a sequence of end-of-pass values of `middle`: every value that is
not the sentinel is pushed. -/
def pushEveryPass : List NodeID → List NodeID
  | [] => []
  | m :: rest => if m ≠ SPECIAL_NODEID then m :: pushEveryPass rest else pushEveryPass rest

/-- The variant named in the design notes, following their words: `middle` is pushed only
in a pass at whose end it is not the sentinel and differs from its value at the end of
the previous pass (`previous`; before the first pass, the initial value of `middle`). -/
def pushOnChange (previous : NodeID) : List NodeID → List NodeID
  | [] => []
  | m :: rest =>
    if m ≠ SPECIAL_NODEID ∧ m ≠ previous then m :: pushOnChange m rest
    else pushOnChange m rest

/-! ## Two concrete sets of collaborators -/

/-- A frontier as the list of its pending entries (vertex, key), smallest key first. -/
abbrev ListHeap := List (NodeID × Nat)

/-- The key of the first pending entry. -/
def listMinKey : ListHeap → EdgeWeight
  | [] => 0
  | (_, k) :: _ => (k : Int)

/-- A routing step on list heaps over a graph without edges: the first entry of the
active heap is removed; when the other heap holds the same vertex and the two keys
add up to less than `weight`, the vertex becomes the meeting vertex. -/
def listStep (_ : Direction) (active other : ListHeap) (middle : NodeID)
    (weight : EdgeWeight) : StepResult ListHeap :=
  match active with
  | [] => ⟨active, other, middle, weight⟩
  | (v, k) :: rest =>
    match other.lookup v with
    | some k' =>
      if ((k : Int) + (k' : Int)) < weight then ⟨rest, other, v, (k : Int) + (k' : Int)⟩
      else ⟨rest, other, middle, weight⟩
    | none => ⟨rest, other, middle, weight⟩

/-- List heaps with the meeting step. -/
def listCollaborators : Collaborators ListHeap :=
  { Size := List.length, MinKey := listMinKey, routingStep := listStep }

/-- A routing step that only removes the first entry of the active heap and never
reports a meeting, as on a graph whose two search spaces are disconnected. -/
def isolatedStep (_ : Direction) (active other : ListHeap) (middle : NodeID)
    (weight : EdgeWeight) : StepResult ListHeap :=
  ⟨active.tail, other, middle, weight⟩

/-- List heaps with the step that never meets. -/
def isolatedCollaborators : Collaborators ListHeap :=
  { Size := List.length, MinKey := listMinKey, routingStep := isolatedStep }

/-- A routing step on list heaps that never reports the sentinel as meeting vertex: it
is `listStep`, except that a step which would leave the sentinel in `middle` leaves
`middle` and `weight` as they were. -/
def properStep (d : Direction) (active other : ListHeap) (middle : NodeID)
    (weight : EdgeWeight) : StepResult ListHeap :=
  if (listStep d active other middle weight).middle = SPECIAL_NODEID then
    ⟨(listStep d active other middle weight).active,
      (listStep d active other middle weight).other, middle, weight⟩
  else listStep d active other middle weight

/-- List heaps with the step that never reports the sentinel. -/
def properCollaborators : Collaborators ListHeap :=
  { Size := List.length, MinKey := listMinKey, routingStep := properStep }

/-- Whether a recorded call was made on a non-empty heap: a `MinKey` read or a routing
step is recorded with the value of `Empty()` on its heap. -/
def Event.onNonEmpty : Event → Bool
  | Event.iteration => true
  | Event.MinKey _ empty => !empty
  | Event.routingStep _ empty _ _ => !empty

/-! ## Properties of the deduplication -/

theorem mem_uniqueAux_imp (last : NodeID) (l : List NodeID) (x : NodeID) :
    x ∈ uniqueAux last l → x ∈ l := by
  induction l generalizing last with
  | nil => simp [uniqueAux]
  | cons y rest ih =>
    unfold uniqueAux
    split
    · intro h; exact List.mem_cons_of_mem _ (ih _ h)
    · intro h
      rcases List.mem_cons.1 h with h | h
      · exact h ▸ List.mem_cons_self _ _
      · exact List.mem_cons_of_mem _ (ih _ h)

theorem mem_of_uniqueAux (last : NodeID) (l : List NodeID) (x : NodeID) :
    x ∈ l → x = last ∨ x ∈ uniqueAux last l := by
  induction l generalizing last with
  | nil => simp
  | cons y rest ih =>
    intro h
    unfold uniqueAux
    rcases List.mem_cons.1 h with h | h
    · subst h
      by_cases hl : last = x
      · exact Or.inl hl.symm
      · rw [if_neg hl]; exact Or.inr (List.mem_cons_self _ _)
    · by_cases hl : last = y
      · rw [if_pos hl]; exact ih last h
      · rw [if_neg hl]
        rcases ih y h with h1 | h1
        · exact Or.inr (h1 ▸ List.mem_cons_self _ _)
        · exact Or.inr (List.mem_cons_of_mem _ h1)

theorem mem_unique (l : List NodeID) (x : NodeID) : x ∈ unique l ↔ x ∈ l := by
  cases l with
  | nil => simp [unique]
  | cons y rest =>
    unfold unique
    constructor
    · intro h
      rcases List.mem_cons.1 h with h | h
      · exact h ▸ List.mem_cons_self _ _
      · exact List.mem_cons_of_mem _ (mem_uniqueAux_imp _ _ _ h)
    · intro h
      rcases List.mem_cons.1 h with h | h
      · exact h ▸ List.mem_cons_self _ _
      · rcases mem_of_uniqueAux y rest x h with h1 | h1
        · exact h1 ▸ List.mem_cons_self _ _
        · exact List.mem_cons_of_mem _ h1

theorem length_uniqueAux_le (last : NodeID) (l : List NodeID) :
    (uniqueAux last l).length ≤ l.length := by
  induction l generalizing last with
  | nil => simp [uniqueAux]
  | cons y rest ih =>
    unfold uniqueAux
    split
    · exact Nat.le_succ_of_le (ih _)
    · simpa using ih y

theorem length_unique_le (l : List NodeID) : (unique l).length ≤ l.length := by
  cases l with
  | nil => simp [unique]
  | cons y rest => simpa [unique] using length_uniqueAux_le y rest

/-- On an ascending list whose elements are all at least `last`, the scan keeps a
strictly ascending list of elements strictly above `last`. -/
theorem uniqueAux_sorted (last : NodeID) (l : List NodeID)
    (hl : ∀ x ∈ l, last ≤ x) (hs : l.Pairwise (· ≤ ·)) :
    (∀ x ∈ uniqueAux last l, last < x) ∧ (uniqueAux last l).Pairwise (· < ·) := by
  induction l generalizing last with
  | nil => simp [uniqueAux]
  | cons y rest ih =>
    have hy : last ≤ y := hl y (List.mem_cons_self _ _)
    rw [List.pairwise_cons] at hs
    unfold uniqueAux
    by_cases h : last = y
    · rw [if_pos h]
      exact ih last (fun x hx => hl x (List.mem_cons_of_mem _ hx)) hs.2
    · rw [if_neg h]
      have hlt : last < y := lt_of_le_of_ne hy h
      obtain ⟨h1, h2⟩ := ih y hs.1 hs.2
      refine ⟨?_, List.pairwise_cons.2 ⟨h1, h2⟩⟩
      intro x hx
      rcases List.mem_cons.1 hx with hx | hx
      · exact hx ▸ hlt
      · exact lt_trans hlt (h1 x hx)

theorem unique_sorted (l : List NodeID) (hs : l.Pairwise (· ≤ ·)) :
    (unique l).Pairwise (· < ·) := by
  cases l with
  | nil => simp [unique]
  | cons y rest =>
    rw [List.pairwise_cons] at hs
    obtain ⟨h1, h2⟩ := uniqueAux_sorted y rest hs.1 hs.2
    exact List.pairwise_cons.2 ⟨h1, h2⟩

theorem sort_sorted (l : List NodeID) : (sort l).Pairwise (· ≤ ·) :=
  List.sorted_insertionSort (· ≤ ·) l

theorem mem_sort (l : List NodeID) (x : NodeID) : x ∈ sort l ↔ x ∈ l :=
  (List.perm_insertionSort (· ≤ ·) l).mem_iff

theorem length_sort (l : List NodeID) : (sort l).length = l.length :=
  List.length_insertionSort (· ≤ ·) l

/-- The scan leaves untouched a strictly ascending list that lies strictly above `last`. -/
theorem uniqueAux_of_strict (last : NodeID) (l : List NodeID)
    (hl : ∀ x ∈ l, last < x) (hs : l.Pairwise (· < ·)) : uniqueAux last l = l := by
  induction l generalizing last with
  | nil => simp [uniqueAux]
  | cons y rest ih =>
    rw [List.pairwise_cons] at hs
    have hy : last ≠ y := ne_of_lt (hl y (List.mem_cons_self _ _))
    unfold uniqueAux
    rw [if_neg hy, ih y hs.1 hs.2]

theorem unique_of_strict (l : List NodeID) (hs : l.Pairwise (· < ·)) : unique l = l := by
  cases l with
  | nil => simp [unique]
  | cons y rest =>
    rw [List.pairwise_cons] at hs
    show y :: uniqueAux y rest = y :: rest
    rw [uniqueAux_of_strict y rest hs.1 hs.2]

theorem sort_of_strict (l : List NodeID) (hs : l.Pairwise (· < ·)) : sort l = l :=
  List.Sorted.insertionSort_eq (hs.imp (fun h => le_of_lt h))

theorem dedup_strict (l : List NodeID) : (dedup l).Pairwise (· < ·) :=
  unique_sorted _ (sort_sorted l)

theorem mem_dedup (l : List NodeID) (x : NodeID) : x ∈ dedup l ↔ x ∈ l := by
  unfold dedup
  rw [mem_unique, mem_sort]

/-- C3 (dedup correctness): for every raw candidate sequence, sort + unique + erase
yields a strictly increasing sequence with exactly the elements of the input, and
of length at most the input length. -/
theorem dedup_correct (candidates : List NodeID) :
    (dedup candidates).Pairwise (· < ·) ∧
    (∀ x, x ∈ dedup candidates ↔ x ∈ candidates) ∧
    (dedup candidates).length ≤ candidates.length :=
  ⟨dedup_strict candidates, mem_dedup candidates,
    le_trans (length_unique_le _) (le_of_eq (length_sort candidates))⟩

/-- C4 (dedup idempotence): applying sort + unique + erase to its own output gives
the same sequence. -/
theorem dedup_idempotent (candidates : List NodeID) :
    dedup (dedup candidates) = dedup candidates := by
  have hs := dedup_strict candidates
  show unique (sort (dedup candidates)) = dedup candidates
  rw [sort_of_strict _ hs, unique_of_strict _ hs]

/-! ## The loop body -/

theorem forwardHalf_candidates {Heap : Type} (c : Collaborators Heap) (s : SearchState Heap) :
    (forwardHalf c s).candidates = s.candidates := by
  unfold forwardHalf
  dsimp only
  split_ifs <;> rfl

theorem reverseHalf_candidates {Heap : Type} (c : Collaborators Heap) (s : SearchState Heap) :
    (reverseHalf c s).candidates = s.candidates := by
  unfold reverseHalf
  dsimp only
  split_ifs <;> rfl

theorem pushCandidate_middle {Heap : Type} (s : SearchState Heap) :
    (pushCandidate s).middle = s.middle := by
  unfold pushCandidate
  split_ifs <;> rfl

theorem pushCandidate_weight {Heap : Type} (s : SearchState Heap) :
    (pushCandidate s).weight = s.weight := by
  unfold pushCandidate
  split_ifs <;> rfl

theorem pushCandidate_mem {Heap : Type} (s : SearchState Heap)
    (hm : s.middle ≠ SPECIAL_NODEID) : s.middle ∈ (pushCandidate s).candidates := by
  unfold pushCandidate
  rw [if_pos hm]
  exact List.mem_append_right _ (List.mem_singleton_self _)

theorem pushCandidate_grows {Heap : Type} (s : SearchState Heap) :
    s.candidates <+: (pushCandidate s).candidates := by
  unfold pushCandidate
  split_ifs
  · exact List.prefix_append _ _
  · exact List.prefix_refl _

/-- After a pass through the loop body, a meeting vertex that is set is in the list. -/
theorem loopBody_middle_mem {Heap : Type} (c : Collaborators Heap) (s : SearchState Heap)
    (hm : (loopBody c s).middle ≠ SPECIAL_NODEID) :
    (loopBody c s).middle ∈ (loopBody c s).candidates := by
  unfold loopBody at hm ⊢
  rw [pushCandidate_middle] at hm ⊢
  exact pushCandidate_mem _ hm

/-- A pass through the loop body only appends to the candidate list. -/
theorem loopBody_grows {Heap : Type} (c : Collaborators Heap) (s : SearchState Heap) :
    s.candidates <+: (loopBody c s).candidates := by
  unfold loopBody
  have h := pushCandidate_grows
    (reverseHalf c (forwardHalf c { s with events := s.events ++ [Event.iteration] }))
  rw [reverseHalf_candidates, forwardHalf_candidates] at h
  exact h

/-! ## The loop -/

theorem searchLoop_grows {Heap : Type} (c : Collaborators Heap) (overlap : ℚ) (fuel : Nat) :
    ∀ s s' : SearchState Heap, searchLoop c overlap fuel s = some s' →
      s.candidates <+: s'.candidates := by
  induction fuel with
  | zero =>
    intro s s' h
    unfold searchLoop at h
    split_ifs at h
    cases h
    exact List.prefix_refl _
  | succ n ih =>
    intro s s' h
    unfold searchLoop at h
    split_ifs at h
    · exact (loopBody_grows c s).trans (ih _ _ h)
    · cases h
      exact List.prefix_refl _

/-- The loop keeps the property "the meeting vertex is unset or in the candidate list". -/
theorem searchLoop_middle_mem {Heap : Type} (c : Collaborators Heap) (overlap : ℚ)
    (fuel : Nat) : ∀ s s' : SearchState Heap, searchLoop c overlap fuel s = some s' →
      (s.middle ≠ SPECIAL_NODEID → s.middle ∈ s.candidates) →
      s'.middle ≠ SPECIAL_NODEID → s'.middle ∈ s'.candidates := by
  induction fuel with
  | zero =>
    intro s s' h hs
    unfold searchLoop at h
    split_ifs at h
    cases h
    exact hs
  | succ n ih =>
    intro s s' h hs
    unfold searchLoop at h
    split_ifs at h
    · exact ih _ _ h (loopBody_middle_mem c s)
    · cases h
      exact hs

theorem stateAfter_middle_mem {Heap : Type} (c : Collaborators Heap) (overlap : ℚ)
    (i : Nat) : ∀ s t : SearchState Heap, stateAfter c overlap i s = some t →
      (s.middle ≠ SPECIAL_NODEID → s.middle ∈ s.candidates) →
      t.middle ≠ SPECIAL_NODEID → t.middle ∈ t.candidates := by
  induction i with
  | zero =>
    intro s t h hs
    unfold stateAfter at h
    cases h
    exact hs
  | succ n ih =>
    intro s t h _
    unfold stateAfter at h
    split_ifs at h
    exact ih _ _ h (loopBody_middle_mem c s)

/-- The candidates present after any number of passes are still present when the
loop stops. -/
theorem stateAfter_candidates_kept {Heap : Type} (c : Collaborators Heap) (overlap : ℚ)
    (i : Nat) : ∀ (fuel : Nat) (s t s' : SearchState Heap),
      stateAfter c overlap i s = some t → searchLoop c overlap fuel s = some s' →
      t.candidates <+: s'.candidates := by
  induction i with
  | zero =>
    intro fuel s t s' ht hs
    unfold stateAfter at ht
    cases ht
    exact searchLoop_grows c overlap fuel _ _ hs
  | succ n ih =>
    intro fuel s t s' ht hs
    unfold stateAfter at ht
    split_ifs at ht with hg
    cases fuel with
    | zero =>
      unfold searchLoop at hs
      rw [if_pos hg] at hs
      cases hs
    | succ m =>
      unfold searchLoop at hs
      rw [if_pos hg] at hs
      exact ih m _ _ _ ht hs

theorem initialState_middle {Heap : Type} (c : Collaborators Heap) (fh rh : Heap) :
    (initialState c fh rh).middle = SPECIAL_NODEID := rfl

theorem harvest_eq_some {Heap : Type} (c : Collaborators Heap) (overlap : ℚ) (fuel : Nat)
    (fh rh : Heap) (s : SearchState Heap) (h : harvestWith c overlap fuel fh rh = some s) :
    ∃ s', searchLoop c overlap fuel (initialState c fh rh) = some s' ∧
      s = { s' with candidates := dedup s'.candidates } := by
  unfold harvestWith at h
  rcases Option.map_eq_some'.1 h with ⟨s', h1, h2⟩
  exact ⟨s', h1, h2.symm⟩

/-- A property kept by every pass through the loop body holds when the loop stops. -/
theorem searchLoop_invariant {Heap : Type} (c : Collaborators Heap) (overlap : ℚ)
    (P : SearchState Heap → Prop) (hP : ∀ s, P s → P (loopBody c s)) (fuel : Nat) :
    ∀ s s' : SearchState Heap, searchLoop c overlap fuel s = some s' → P s → P s' := by
  induction fuel with
  | zero =>
    intro s s' h hs
    unfold searchLoop at h
    split_ifs at h
    cases h
    exact hs
  | succ n ih =>
    intro s s' h hs
    unfold searchLoop at h
    split_ifs at h
    · exact ih _ _ h (hP s hs)
    · cases h
      exact hs

theorem reverseHalf_of_empty {Heap : Type} (c : Collaborators Heap) (s : SearchState Heap)
    (he : c.Empty s.reverse_heap = true) : reverseHalf c s = s := by
  unfold reverseHalf
  rw [if_pos he]

/-! ## The call record of one pass -/

theorem pushCandidate_events {Heap : Type} (s : SearchState Heap) :
    (pushCandidate s).events = s.events := by
  unfold pushCandidate
  split_ifs <;> rfl

/-- The forward half records only forward calls. -/
theorem forwardHalf_events {Heap : Type} (c : Collaborators Heap) (s : SearchState Heap)
    (e : Event) (he : e ∈ (forwardHalf c s).events) :
    e ∈ s.events ∨ (∃ b m w, e = Event.routingStep Direction.FORWARD_DIRECTION b m w) ∨
      ∃ b, e = Event.MinKey Direction.FORWARD_DIRECTION b := by
  unfold forwardHalf at he
  dsimp only at he
  split_ifs at he
  · exact Or.inl he
  · rcases List.mem_append.1 he with h | h
    · exact Or.inl h
    · exact Or.inr (Or.inl ⟨_, _, _, List.mem_singleton.1 h⟩)
  · rcases List.mem_append.1 he with h | h
    · rcases List.mem_append.1 h with h | h
      · exact Or.inl h
      · exact Or.inr (Or.inl ⟨_, _, _, List.mem_singleton.1 h⟩)
    · exact Or.inr (Or.inr ⟨_, List.mem_singleton.1 h⟩)

/-- The reverse half records one reverse step at most, with the `middle` it leaves. -/
theorem reverseHalf_events {Heap : Type} (c : Collaborators Heap) (s : SearchState Heap)
    (e : Event) (he : e ∈ (reverseHalf c s).events) :
    e ∈ s.events ∨
      (∃ b w, e = Event.routingStep Direction.REVERSE_DIRECTION b (reverseHalf c s).middle w) ∨
      ∃ b, e = Event.MinKey Direction.REVERSE_DIRECTION b := by
  by_cases hempty : c.Empty s.reverse_heap = true
  · rw [reverseHalf_of_empty c s hempty] at he
    exact Or.inl he
  · have hm : (reverseHalf c s).middle =
        (c.routingStep Direction.REVERSE_DIRECTION s.reverse_heap s.forward_heap
          s.middle s.weight).middle := by
      unfold reverseHalf
      dsimp only
      rw [if_neg hempty]
      split_ifs <;> rfl
    rw [hm]
    unfold reverseHalf at he
    dsimp only at he
    rw [if_neg hempty] at he
    split_ifs at he
    · rcases List.mem_append.1 he with h | h
      · exact Or.inl h
      · exact Or.inr (Or.inl ⟨_, _, List.mem_singleton.1 h⟩)
    · rcases List.mem_append.1 he with h | h
      · rcases List.mem_append.1 h with h | h
        · exact Or.inl h
        · exact Or.inr (Or.inl ⟨_, _, List.mem_singleton.1 h⟩)
      · exact Or.inr (Or.inr ⟨_, List.mem_singleton.1 h⟩)

/-- A reverse step recorded during a pass left the `middle` that the pass ends with. -/
theorem loopBody_reverse_event {Heap : Type} (c : Collaborators Heap) (s : SearchState Heap)
    (b : Bool) (m : NodeID) (w : EdgeWeight)
    (he : Event.routingStep Direction.REVERSE_DIRECTION b m w ∈ (loopBody c s).events) :
    Event.routingStep Direction.REVERSE_DIRECTION b m w ∈ s.events ∨
      m = (loopBody c s).middle := by
  unfold loopBody at he ⊢
  rw [pushCandidate_events] at he
  rw [pushCandidate_middle]
  rcases reverseHalf_events c _ _ he with h | ⟨b', w', h⟩ | ⟨b', h⟩
  · rcases forwardHalf_events c _ _ h with h | ⟨b', m', w', h⟩ | ⟨b', h⟩
    · rcases List.mem_append.1 h with h | h
      · exact Or.inl h
      · cases List.mem_singleton.1 h
    · cases h
    · cases h
  · cases h
    exact Or.inr rfl
  · cases h

/-- When the loop stops, every set `middle` left by a recorded reverse step is in the
candidate list. -/
theorem searchLoop_reverse_events {Heap : Type} (c : Collaborators Heap) (overlap : ℚ)
    (fuel : Nat) (forward_heap reverse_heap : Heap) (s' : SearchState Heap)
    (hloop : searchLoop c overlap fuel (initialState c forward_heap reverse_heap) = some s')
    (b : Bool) (m : NodeID) (w : EdgeWeight)
    (he : Event.routingStep Direction.REVERSE_DIRECTION b m w ∈ s'.events)
    (hm : m ≠ SPECIAL_NODEID) : m ∈ s'.candidates := by
  refine searchLoop_invariant c overlap
    (fun s => ∀ b m w, Event.routingStep Direction.REVERSE_DIRECTION b m w ∈ s.events →
      m ≠ SPECIAL_NODEID → m ∈ s.candidates) ?_ fuel _ s' hloop ?_ b m w he hm
  · intro s hs b m w he hm
    rcases loopBody_reverse_event c s b m w he with h | h
    · exact (loopBody_grows c s).subset (hs b m w h hm)
    · rw [h] at hm ⊢
      exact loopBody_middle_mem c s hm
  · intro b m w he
    simp [initialState] at he

/-! ## The candidate list and the meeting vertex -/

/-- C1 (candidate superset): when a route exists at loop exit (`weight` is not the
invalid weight and `middle` is set), the final `middle` is a member of the
deduplicated candidates. -/
theorem candidate_superset {Heap : Type} (c : Collaborators Heap) (fuel : Nat)
    (forward_heap reverse_heap : Heap) (s : SearchState Heap)
    (hrun : harvest c fuel forward_heap reverse_heap = some s)
    (_hweight : s.weight ≠ INVALID_EDGE_WEIGHT) (hmiddle : s.middle ≠ SPECIAL_NODEID) :
    s.middle ∈ s.candidates := by
  obtain ⟨s', hloop, rfl⟩ := harvest_eq_some c _ fuel _ _ s hrun
  show s'.middle ∈ dedup s'.candidates
  rw [mem_dedup]
  refine searchLoop_middle_mem c _ fuel _ _ hloop ?_ hmiddle
  intro h
  exact absurd (initialState_middle c forward_heap reverse_heap) h

/-- The run of C1 on list heaps: the searches meet at vertex 1 and then at vertex 2. -/
theorem candidate_superset_witness :
    ∃ s, harvest listCollaborators 5 [(1, 1), (2, 2)] [(2, 1), (1, 5)] = some s ∧
      s.weight = 3 ∧ s.middle = 2 ∧ s.middle ∈ s.candidates :=
  ⟨_, rfl, rfl, rfl,
    candidate_superset listCollaborators 5 [(1, 1), (2, 2)] [(2, 1), (1, 5)] _ rfl
      (by decide) (by decide)⟩

/-- C2 as stated fails: on list heaps the forward step of the only pass sets `middle`
to vertex 1, the reverse step of the same pass replaces it by vertex 2, and vertex 1
is not among the candidates. -/
theorem superseded_middle_not_candidate :
    ∃ s, harvest listCollaborators 5 [(1, 1), (2, 2)] [(2, 1), (1, 5)] = some s ∧
      Event.routingStep Direction.FORWARD_DIRECTION false 1 6 ∈ s.events ∧
      1 ≠ SPECIAL_NODEID ∧ 1 ∉ s.candidates :=
  ⟨_, rfl, by decide, by decide, by decide⟩

/-- C2 (amended): the final candidate set contains every non-sentinel value that
`middle` held at the end of a pass through the loop body, and so every non-sentinel
value that a reverse step left in `middle`. -/
theorem candidates_contain_pass_middles {Heap : Type} (c : Collaborators Heap) (fuel : Nat)
    (forward_heap reverse_heap : Heap) (s : SearchState Heap)
    (hrun : harvest c fuel forward_heap reverse_heap = some s) :
    (∀ i t,
      stateAfter c search_space_overlap i (initialState c forward_heap reverse_heap) = some t →
      t.middle ≠ SPECIAL_NODEID → t.middle ∈ s.candidates) ∧
    (∀ b m w, Event.routingStep Direction.REVERSE_DIRECTION b m w ∈ s.events →
      m ≠ SPECIAL_NODEID → m ∈ s.candidates) := by
  obtain ⟨s', hloop, rfl⟩ := harvest_eq_some c _ fuel _ _ s hrun
  constructor
  · intro i t hpass hmiddle
    show t.middle ∈ dedup s'.candidates
    rw [mem_dedup]
    have hkept := stateAfter_candidates_kept c _ i fuel _ t s' hpass hloop
    refine hkept.subset (stateAfter_middle_mem c _ i _ t hpass ?_ hmiddle)
    intro h
    exact absurd (initialState_middle c forward_heap reverse_heap) h
  · intro b m w he hm
    show m ∈ dedup s'.candidates
    rw [mem_dedup]
    exact searchLoop_reverse_events c _ fuel _ _ s' hloop b m w he hm

/-- The run of the amended C2 on list heaps: after the first pass `middle` is vertex 2,
left there by the reverse step. -/
theorem candidates_contain_pass_middles_witness :
    ∃ s t, harvest listCollaborators 5 [(1, 1), (2, 2)] [(2, 1), (1, 5)] = some s ∧
      stateAfter listCollaborators search_space_overlap 1
        (initialState listCollaborators [(1, 1), (2, 2)] [(2, 1), (1, 5)]) = some t ∧
      t.middle = 2 ∧ t.middle ∈ s.candidates ∧
      Event.routingStep Direction.REVERSE_DIRECTION false 2 3 ∈ s.events ∧
      2 ∈ s.candidates :=
  ⟨_, _, rfl, rfl, rfl,
    (candidates_contain_pass_middles listCollaborators 5 [(1, 1), (2, 2)] [(2, 1), (1, 5)] _
      rfl).1 1 _ rfl (by decide),
    by decide,
    (candidates_contain_pass_middles listCollaborators 5 [(1, 1), (2, 2)] [(2, 1), (1, 5)] _
      rfl).2 false 2 3 (by decide) (by decide)⟩

/-! ## The loop condition -/

theorem search_space_overlap_den : search_space_overlap.den = 50 := by decide

theorem search_space_overlap_num : search_space_overlap.num = 83 := by decide

/-- The bound test decides the rational inequality `sum < weight * overlap`. -/
theorem boundTest_iff (overlap : ℚ) (a b w : EdgeWeight) :
    boundTest overlap a b w = true ↔
      ((wrapInt32 (a + b) : Int) : ℚ) < ((w : Int) : ℚ) * overlap := by
  unfold boundTest
  rw [decide_eq_true_iff]
  have hd : (0 : ℚ) < (overlap.den : ℚ) := by exact_mod_cast overlap.den_pos
  have hw : ((w : Int) : ℚ) * overlap = (((w : Int) : ℚ) * (overlap.num : ℚ)) / (overlap.den : ℚ) := by
    rw [mul_div_assoc, Rat.num_div_den]
  rw [hw, lt_div_iff₀ hd]
  exact_mod_cast Iff.rfl

theorem wrapInt32_le (x : Int) : wrapInt32 x ≤ 2147483647 := by
  unfold wrapInt32
  omega

/-- With the invalid weight the bound test holds for every pair of keys. -/
theorem boundTest_invalid (a b : EdgeWeight) :
    boundTest search_space_overlap a b INVALID_EDGE_WEIGHT = true := by
  unfold boundTest
  rw [decide_eq_true_iff, search_space_overlap_den, search_space_overlap_num]
  have h := wrapInt32_le (a + b)
  unfold INVALID_EDGE_WEIGHT
  push_cast
  omega

theorem searchLoop_exit {Heap : Type} (c : Collaborators Heap) (overlap : ℚ) (fuel : Nat) :
    ∀ s s' : SearchState Heap, searchLoop c overlap fuel s = some s' →
      loopGuard c overlap s' = false := by
  induction fuel with
  | zero =>
    intro s s' h
    unfold searchLoop at h
    split_ifs at h with hg
    cases h
    simpa using hg
  | succ n ih =>
    intro s s' h
    unfold searchLoop at h
    split_ifs at h with hg
    · exact ih _ _ h
    · cases h
      simpa using hg

/-! ## What the two halves of the loop body do to `middle` and `weight` -/

theorem forwardHalf_cases {Heap : Type} (c : Collaborators Heap) (s : SearchState Heap) :
    ((forwardHalf c s).middle = s.middle ∧ (forwardHalf c s).weight = s.weight) ∨
    ∃ d a o, (forwardHalf c s).middle = (c.routingStep d a o s.middle s.weight).middle ∧
      (forwardHalf c s).weight = (c.routingStep d a o s.middle s.weight).weight := by
  unfold forwardHalf
  dsimp only
  split_ifs
  · exact Or.inl ⟨rfl, rfl⟩
  · exact Or.inr ⟨_, _, _, rfl, rfl⟩
  · exact Or.inr ⟨_, _, _, rfl, rfl⟩

theorem reverseHalf_cases {Heap : Type} (c : Collaborators Heap) (s : SearchState Heap) :
    ((reverseHalf c s).middle = s.middle ∧ (reverseHalf c s).weight = s.weight) ∨
    ∃ d a o, (reverseHalf c s).middle = (c.routingStep d a o s.middle s.weight).middle ∧
      (reverseHalf c s).weight = (c.routingStep d a o s.middle s.weight).weight := by
  unfold reverseHalf
  dsimp only
  split_ifs
  · exact Or.inl ⟨rfl, rfl⟩
  · exact Or.inr ⟨_, _, _, rfl, rfl⟩
  · exact Or.inr ⟨_, _, _, rfl, rfl⟩

/-- A relation between the old and the new pair (`middle`, `weight`) that is reflexive,
transitive and respected by every routing step is respected by the loop body: the
body changes the pair only through routing steps. -/
theorem loopBody_respects {Heap : Type} (c : Collaborators Heap)
    (R : NodeID → EdgeWeight → NodeID → EdgeWeight → Prop)
    (hrefl : ∀ m w, R m w m w)
    (htrans : ∀ m1 w1 m2 w2 m3 w3, R m1 w1 m2 w2 → R m2 w2 m3 w3 → R m1 w1 m3 w3)
    (hstep : ∀ d a o m w, R m w (c.routingStep d a o m w).middle (c.routingStep d a o m w).weight)
    (s : SearchState Heap) :
    R s.middle s.weight (loopBody c s).middle (loopBody c s).weight := by
  unfold loopBody
  rw [pushCandidate_middle, pushCandidate_weight]
  set s0 : SearchState Heap := { s with events := s.events ++ [Event.iteration] } with hs0
  have h1 : R s.middle s.weight (forwardHalf c s0).middle (forwardHalf c s0).weight := by
    rcases forwardHalf_cases c s0 with ⟨hm, hw⟩ | ⟨d, a, o, hm, hw⟩
    · rw [hm, hw]; exact hrefl _ _
    · rw [hm, hw]; exact hstep d a o s.middle s.weight
  have h2 : R (forwardHalf c s0).middle (forwardHalf c s0).weight
      (reverseHalf c (forwardHalf c s0)).middle (reverseHalf c (forwardHalf c s0)).weight := by
    rcases reverseHalf_cases c (forwardHalf c s0) with ⟨hm, hw⟩ | ⟨d, a, o, hm, hw⟩
    · rw [hm, hw]; exact hrefl _ _
    · rw [hm, hw]; exact hstep d a o _ _
  exact htrans _ _ _ _ _ _ h1 h2

theorem loopBody_candidates_of_unset {Heap : Type} (c : Collaborators Heap)
    (s : SearchState Heap) (hm : (loopBody c s).middle = SPECIAL_NODEID) :
    (loopBody c s).candidates = s.candidates := by
  unfold loopBody at hm ⊢
  rw [pushCandidate_middle] at hm
  unfold pushCandidate
  rw [if_neg (by simpa using hm), reverseHalf_candidates, forwardHalf_candidates]

/-! ## Termination under the step contract -/

theorem forwardHalf_of_nonempty {Heap : Type} (c : Collaborators Heap) (s : SearchState Heap)
    (hne : c.Empty s.forward_heap = false) :
    (forwardHalf c s).forward_heap =
        (c.routingStep Direction.FORWARD_DIRECTION s.forward_heap s.reverse_heap
          s.middle s.weight).active ∧
      (forwardHalf c s).reverse_heap =
        (c.routingStep Direction.FORWARD_DIRECTION s.forward_heap s.reverse_heap
          s.middle s.weight).other := by
  unfold forwardHalf
  dsimp only
  rw [if_neg (by simp [hne])]
  split_ifs <;> exact ⟨rfl, rfl⟩

theorem reverseHalf_of_nonempty {Heap : Type} (c : Collaborators Heap) (s : SearchState Heap)
    (hne : c.Empty s.reverse_heap = false) :
    (reverseHalf c s).reverse_heap =
        (c.routingStep Direction.REVERSE_DIRECTION s.reverse_heap s.forward_heap
          s.middle s.weight).active ∧
      (reverseHalf c s).forward_heap =
        (c.routingStep Direction.REVERSE_DIRECTION s.reverse_heap s.forward_heap
          s.middle s.weight).other := by
  unfold reverseHalf
  dsimp only
  rw [if_neg (by simp [hne])]
  split_ifs <;> exact ⟨rfl, rfl⟩

theorem forwardHalf_unsettled_lt {Heap : Type} (c : Collaborators Heap)
    (unsettled : Heap → Nat) (hc : StepContract c unsettled) (s : SearchState Heap)
    (hne : c.Empty s.forward_heap = false) :
    unsettled (forwardHalf c s).forward_heap + unsettled (forwardHalf c s).reverse_heap <
      unsettled s.forward_heap + unsettled s.reverse_heap := by
  have ha := hc.active Direction.FORWARD_DIRECTION s.forward_heap s.reverse_heap s.middle
    s.weight hne
  have ho := hc.other Direction.FORWARD_DIRECTION s.forward_heap s.reverse_heap s.middle s.weight
  rw [(forwardHalf_of_nonempty c s hne).1, (forwardHalf_of_nonempty c s hne).2]
  omega

theorem reverseHalf_unsettled_lt {Heap : Type} (c : Collaborators Heap)
    (unsettled : Heap → Nat) (hc : StepContract c unsettled) (s : SearchState Heap)
    (hne : c.Empty s.reverse_heap = false) :
    unsettled (reverseHalf c s).forward_heap + unsettled (reverseHalf c s).reverse_heap <
      unsettled s.forward_heap + unsettled s.reverse_heap := by
  have ha := hc.active Direction.REVERSE_DIRECTION s.reverse_heap s.forward_heap s.middle
    s.weight hne
  have ho := hc.other Direction.REVERSE_DIRECTION s.reverse_heap s.forward_heap s.middle s.weight
  rw [(reverseHalf_of_nonempty c s hne).1, (reverseHalf_of_nonempty c s hne).2]
  omega

theorem reverseHalf_unsettled_le {Heap : Type} (c : Collaborators Heap)
    (unsettled : Heap → Nat) (hc : StepContract c unsettled) (s : SearchState Heap) :
    unsettled (reverseHalf c s).forward_heap + unsettled (reverseHalf c s).reverse_heap ≤
      unsettled s.forward_heap + unsettled s.reverse_heap := by
  by_cases he : c.Empty s.reverse_heap = true
  · rw [reverseHalf_of_empty c s he]
  · exact le_of_lt (reverseHalf_unsettled_lt c unsettled hc s (by simpa using he))

theorem forwardHalf_of_empty {Heap : Type} (c : Collaborators Heap) (s : SearchState Heap)
    (he : c.Empty s.forward_heap = true) : forwardHalf c s = s := by
  unfold forwardHalf
  rw [if_pos he]

theorem pushCandidate_heaps {Heap : Type} (s : SearchState Heap) :
    (pushCandidate s).forward_heap = s.forward_heap ∧
      (pushCandidate s).reverse_heap = s.reverse_heap := by
  unfold pushCandidate
  split_ifs <;> exact ⟨rfl, rfl⟩

/-- While the loop condition holds, a pass through the loop body settles at least one
vertex. -/
theorem loopBody_unsettled_lt {Heap : Type} (c : Collaborators Heap)
    (unsettled : Heap → Nat) (hc : StepContract c unsettled) (overlap : ℚ)
    (s : SearchState Heap) (hg : loopGuard c overlap s = true) :
    unsettled (loopBody c s).forward_heap + unsettled (loopBody c s).reverse_heap <
      unsettled s.forward_heap + unsettled s.reverse_heap := by
  unfold loopGuard at hg
  rw [Bool.and_eq_true, decide_eq_true_iff] at hg
  have hsize := hg.1
  unfold loopBody
  rw [(pushCandidate_heaps _).1, (pushCandidate_heaps _).2]
  set s0 : SearchState Heap := { s with events := s.events ++ [Event.iteration] } with hs0
  have hle := reverseHalf_unsettled_le c unsettled hc (forwardHalf c s0)
  by_cases hf : c.Empty s.forward_heap = true
  · have h0 : forwardHalf c s0 = s0 := forwardHalf_of_empty c s0 hf
    have hr : c.Empty s0.reverse_heap = false := by
      have hf0 : c.Size s.forward_heap = 0 := by simpa [Collaborators.Empty] using hf
      have : c.Size s.reverse_heap ≠ 0 := by omega
      simpa [Collaborators.Empty, hs0] using this
    have hlt := reverseHalf_unsettled_lt c unsettled hc s0 hr
    rw [h0]
    exact hlt
  · have hlt := forwardHalf_unsettled_lt c unsettled hc s0 (by simpa [hs0] using hf)
    exact lt_of_le_of_lt hle hlt

theorem searchLoop_of_guard_false {Heap : Type} (c : Collaborators Heap) (overlap : ℚ)
    (fuel : Nat) (s : SearchState Heap) (hg : loopGuard c overlap s = false) :
    searchLoop c overlap fuel s = some s := by
  cases fuel <;> simp [searchLoop, hg]

/-- Under the step contract the loop stops after at most as many passes as there are
unsettled vertices. -/
theorem searchLoop_terminates {Heap : Type} (c : Collaborators Heap)
    (unsettled : Heap → Nat) (hc : StepContract c unsettled) (overlap : ℚ) (n : Nat) :
    ∀ s : SearchState Heap, unsettled s.forward_heap + unsettled s.reverse_heap ≤ n →
      ∃ i s', i ≤ unsettled s.forward_heap + unsettled s.reverse_heap ∧
        stateAfter c overlap i s = some s' ∧ loopGuard c overlap s' = false ∧
        ∀ fuel, i ≤ fuel → searchLoop c overlap fuel s = some s' := by
  induction n with
  | zero =>
    intro s hn
    by_cases hg : loopGuard c overlap s = true
    · have := loopBody_unsettled_lt c unsettled hc overlap s hg
      omega
    · have hg' : loopGuard c overlap s = false := by simpa using hg
      exact ⟨0, s, Nat.zero_le _, rfl, hg', fun fuel _ => searchLoop_of_guard_false c overlap fuel s hg'⟩
  | succ n ih =>
    intro s hn
    by_cases hg : loopGuard c overlap s = true
    · have hlt := loopBody_unsettled_lt c unsettled hc overlap s hg
      obtain ⟨i, s', hi, hst, hex, hfuel⟩ := ih (loopBody c s) (by omega)
      refine ⟨i + 1, s', by omega, ?_, hex, ?_⟩
      · show (if loopGuard c overlap s then stateAfter c overlap i (loopBody c s) else none) = _
        rw [if_pos hg, hst]
      · intro fuel hf
        obtain ⟨m, rfl⟩ : ∃ m, fuel = m + 1 := ⟨fuel - 1, by omega⟩
        show (if loopGuard c overlap s then searchLoop c overlap m (loopBody c s) else some s) = _
        rw [if_pos hg]
        exact hfuel m (by omega)
    · have hg' : loopGuard c overlap s = false := by simpa using hg
      exact ⟨0, s, Nat.zero_le _, rfl, hg', fun fuel _ => searchLoop_of_guard_false c overlap fuel s hg'⟩

/-- When the loop condition fails while `weight` is still invalid, both heaps are empty. -/
theorem empty_of_exit_invalid {Heap : Type} (c : Collaborators Heap) (s : SearchState Heap)
    (hw : s.weight = INVALID_EDGE_WEIGHT)
    (hg : loopGuard c search_space_overlap s = false) :
    c.Empty s.forward_heap = true ∧ c.Empty s.reverse_heap = true := by
  unfold loopGuard at hg
  rw [hw, boundTest_invalid, Bool.and_true, decide_eq_false_iff_not] at hg
  simp only [Collaborators.Empty, beq_iff_eq]
  omega

/-- On list heaps both routing steps meet the step contract, with the number of
pending entries as the number of unsettled vertices. -/
theorem listCollaborators_contract : StepContract listCollaborators List.length := by
  constructor
  · intro d a o m w hne
    cases a with
    | nil => simp [Collaborators.Empty, listCollaborators] at hne
    | cons e rest =>
      obtain ⟨v, k⟩ := e
      show (listStep d ((v, k) :: rest) o m w).active.length < _
      unfold listStep
      dsimp only
      split
      · split_ifs <;> simp
      · simp
  · intro d a o m w
    show (listStep d a o m w).other.length ≤ _
    unfold listStep
    split
    · exact le_refl _
    · split
      · split_ifs <;> exact le_refl _
      · exact le_refl _

theorem isolatedCollaborators_contract : StepContract isolatedCollaborators List.length := by
  constructor
  · intro d a o m w hne
    cases a with
    | nil => simp [Collaborators.Empty, isolatedCollaborators] at hne
    | cons e rest => simp [isolatedCollaborators, isolatedStep]
  · intro d a o m w
    exact le_refl _

/-! ## No route, the returned value, termination -/

/-- The state after `i + 1` passes is the loop body applied to the state after `i`
passes, at which the loop condition held. -/
theorem stateAfter_succ {Heap : Type} (c : Collaborators Heap) (overlap : ℚ) (i : Nat) :
    ∀ s t' : SearchState Heap, stateAfter c overlap (i + 1) s = some t' →
      ∃ t, stateAfter c overlap i s = some t ∧ loopGuard c overlap t = true ∧
        t' = loopBody c t := by
  induction i with
  | zero =>
    intro s t' h
    unfold stateAfter at h
    split_ifs at h with hg
    unfold stateAfter at h
    cases h
    exact ⟨s, rfl, hg, rfl⟩
  | succ n ih =>
    intro s t' h
    rw [stateAfter] at h
    split_ifs at h with hg
    obtain ⟨t, ht, hgt, rfl⟩ := ih _ _ h
    refine ⟨t, ?_, hgt, rfl⟩
    rw [stateAfter, if_pos hg]
    exact ht

/-- The heaps, `middle` and `weight` left by the forward half do not depend on the call
record. -/
theorem forwardHalf_record_free {Heap : Type} (c : Collaborators Heap) (s : SearchState Heap)
    (events : List Event) :
    (forwardHalf c { s with events := events }).forward_heap = (forwardHalf c s).forward_heap ∧
    (forwardHalf c { s with events := events }).reverse_heap = (forwardHalf c s).reverse_heap ∧
    (forwardHalf c { s with events := events }).middle = (forwardHalf c s).middle ∧
    (forwardHalf c { s with events := events }).weight = (forwardHalf c s).weight := by
  unfold forwardHalf
  dsimp only
  split_ifs <;> exact ⟨rfl, rfl, rfl, rfl⟩

theorem forwardHalf_best {Heap : Type} (c : Collaborators Heap) (s : SearchState Heap)
    (hne : c.Empty s.forward_heap = false) :
    (forwardHalf c s).middle =
        (c.routingStep Direction.FORWARD_DIRECTION s.forward_heap s.reverse_heap
          s.middle s.weight).middle ∧
      (forwardHalf c s).weight =
        (c.routingStep Direction.FORWARD_DIRECTION s.forward_heap s.reverse_heap
          s.middle s.weight).weight := by
  unfold forwardHalf
  dsimp only
  rw [if_neg (by simp [hne])]
  split_ifs <;> exact ⟨rfl, rfl⟩

theorem reverseHalf_best {Heap : Type} (c : Collaborators Heap) (s : SearchState Heap)
    (hne : c.Empty s.reverse_heap = false) :
    (reverseHalf c s).middle =
        (c.routingStep Direction.REVERSE_DIRECTION s.reverse_heap s.forward_heap
          s.middle s.weight).middle ∧
      (reverseHalf c s).weight =
        (c.routingStep Direction.REVERSE_DIRECTION s.reverse_heap s.forward_heap
          s.middle s.weight).weight := by
  unfold reverseHalf
  dsimp only
  rw [if_neg (by simp [hne])]
  split_ifs <;> exact ⟨rfl, rfl⟩

/-- A pass in which no step reports a meeting leaves `middle` and `weight` unchanged. -/
theorem loopBody_of_no_meeting {Heap : Type} (c : Collaborators Heap) (s : SearchState Heap)
    (h : passReportsNoMeeting c s) :
    (loopBody c s).middle = s.middle ∧ (loopBody c s).weight = s.weight := by
  unfold loopBody
  rw [pushCandidate_middle, pushCandidate_weight]
  obtain ⟨e1, e2, e3, e4⟩ := forwardHalf_record_free c s (s.events ++ [Event.iteration])
  have hfwd : (forwardHalf c s).middle = s.middle ∧ (forwardHalf c s).weight = s.weight := by
    by_cases hf : c.Empty s.forward_heap = true
    · rw [forwardHalf_of_empty c s hf]
      exact ⟨rfl, rfl⟩
    · have hf' : c.Empty s.forward_heap = false := by simpa using hf
      rw [(forwardHalf_best c s hf').1, (forwardHalf_best c s hf').2]
      exact h.1 hf'
  by_cases hr : c.Empty
      (forwardHalf c { s with events := s.events ++ [Event.iteration] }).reverse_heap = true
  · rw [reverseHalf_of_empty c _ hr, e3, e4]
    exact hfwd
  · have hr' : c.Empty
        (forwardHalf c { s with events := s.events ++ [Event.iteration] }).reverse_heap
        = false := by simpa using hr
    rw [(reverseHalf_best c _ hr').1, (reverseHalf_best c _ hr').2, e1, e2, e3, e4]
    rw [e2] at hr'
    have h2 := h.2 hr'
    rw [h2.1, h2.2]
    exact hfwd

/-- The state at which the loop stops is the state after some number of passes. -/
theorem searchLoop_stateAfter {Heap : Type} (c : Collaborators Heap) (overlap : ℚ)
    (fuel : Nat) : ∀ s s' : SearchState Heap, searchLoop c overlap fuel s = some s' →
      ∃ i, i ≤ fuel ∧ stateAfter c overlap i s = some s' := by
  induction fuel with
  | zero =>
    intro s s' h
    unfold searchLoop at h
    split_ifs at h
    cases h
    exact ⟨0, le_refl _, rfl⟩
  | succ n ih =>
    intro s s' h
    unfold searchLoop at h
    split_ifs at h with hg
    · obtain ⟨i, hi, hst⟩ := ih _ _ h
      refine ⟨i + 1, by omega, ?_⟩
      show (if loopGuard c overlap s then stateAfter c overlap i (loopBody c s) else none) = _
      rw [if_pos hg]
      exact hst
    · cases h
      exact ⟨0, Nat.zero_le _, rfl⟩

/-- In a run none of whose passes reports a meeting, after any number of passes
`middle` is unset, `weight` is invalid and the candidate list is empty. -/
theorem stateAfter_no_meeting {Heap : Type} (c : Collaborators Heap)
    (forward_heap reverse_heap : Heap)
    (hno : ∀ i t,
      stateAfter c search_space_overlap i (initialState c forward_heap reverse_heap) = some t →
      loopGuard c search_space_overlap t = true → passReportsNoMeeting c t)
    (i : Nat) : ∀ t,
      stateAfter c search_space_overlap i (initialState c forward_heap reverse_heap) = some t →
      t.middle = SPECIAL_NODEID ∧ t.weight = INVALID_EDGE_WEIGHT ∧ t.candidates = [] := by
  induction i with
  | zero =>
    intro t ht
    unfold stateAfter at ht
    cases ht
    exact ⟨rfl, rfl, rfl⟩
  | succ n ih =>
    intro t' ht'
    obtain ⟨t, ht, hg, rfl⟩ := stateAfter_succ c _ n _ t' ht'
    obtain ⟨hm, hw, hc⟩ := ih t ht
    obtain ⟨hm', hw'⟩ := loopBody_of_no_meeting c t (hno n t ht hg)
    refine ⟨hm'.trans hm, hw'.trans hw, ?_⟩
    rw [loopBody_candidates_of_unset c t (hm'.trans hm)]
    exact hc

/-- C5 (no route): for a run in which no relaxation step ever reports an improving
meeting (in every pass of the run, each step that runs leaves `middle` and `weight`
unchanged), the loop can only be left with both frontiers empty, and then `middle`
is unset, `weight` is invalid, there is no candidate and `alternativePathSearch`
returns the empty result; under the step contract the run does leave the loop. -/
theorem no_route {Heap : Type} (c : Collaborators Heap) (forward_heap reverse_heap : Heap)
    (hno : ∀ i t,
      stateAfter c search_space_overlap i (initialState c forward_heap reverse_heap) = some t →
      loopGuard c search_space_overlap t = true → passReportsNoMeeting c t) :
    (∀ fuel s, harvest c fuel forward_heap reverse_heap = some s →
      c.Empty s.forward_heap = true ∧ c.Empty s.reverse_heap = true ∧
      s.middle = SPECIAL_NODEID ∧ s.weight = INVALID_EDGE_WEIGHT ∧ s.candidates = [] ∧
      alternativePathSearch c fuel forward_heap reverse_heap = some {}) ∧
    (∀ unsettled, StepContract c unsettled →
      ∀ fuel, unsettled forward_heap + unsettled reverse_heap ≤ fuel →
        ∃ s, harvest c fuel forward_heap reverse_heap = some s ∧
          alternativePathSearch c fuel forward_heap reverse_heap = some {}) := by
  have key : ∀ fuel s, harvest c fuel forward_heap reverse_heap = some s →
      c.Empty s.forward_heap = true ∧ c.Empty s.reverse_heap = true ∧
      s.middle = SPECIAL_NODEID ∧ s.weight = INVALID_EDGE_WEIGHT ∧ s.candidates = [] ∧
      alternativePathSearch c fuel forward_heap reverse_heap = some {} := by
    intro fuel s hrun
    obtain ⟨s', hloop, rfl⟩ := harvest_eq_some c _ fuel _ _ s hrun
    obtain ⟨i, _, hst⟩ := searchLoop_stateAfter c _ fuel _ s' hloop
    have hinv := stateAfter_no_meeting c forward_heap reverse_heap hno i s' hst
    have hexit := searchLoop_exit c _ fuel _ s' hloop
    have hempty := empty_of_exit_invalid c s' hinv.2.1 hexit
    refine ⟨hempty.1, hempty.2, hinv.1, hinv.2.1, ?_, ?_⟩
    · show dedup s'.candidates = []
      rw [hinv.2.2]
      rfl
    · unfold alternativePathSearch
      rw [hrun]
      show some (returnValue _) = some {}
      unfold returnValue
      rw [if_pos (Or.inl hinv.2.1)]
  refine ⟨key, ?_⟩
  intro unsettled hc fuel hfuel
  obtain ⟨i, s', hi, _, _, hall⟩ := searchLoop_terminates c unsettled hc search_space_overlap
    (unsettled forward_heap + unsettled reverse_heap)
    (initialState c forward_heap reverse_heap) (le_refl _)
  have hloop := hall fuel (le_trans hi hfuel)
  have hrun : harvest c fuel forward_heap reverse_heap
      = some { s' with candidates := dedup s'.candidates } := by
    unfold harvest harvestWith
    rw [hloop]
    rfl
  exact ⟨_, hrun, (key fuel _ hrun).2.2.2.2.2⟩

/-- The run of C5 on list heaps with the meeting step, seeded with disjoint vertices:
no pass reports a meeting, both heaps are emptied in two passes, and the empty result
is returned. -/
theorem no_route_witness :
    ∃ s, harvest listCollaborators 4 [(1, 1), (2, 2)] [(4, 1), (5, 2)] = some s ∧
      s.forward_heap = [] ∧ s.reverse_heap = [] ∧
      s.middle = SPECIAL_NODEID ∧ s.weight = INVALID_EDGE_WEIGHT ∧ s.candidates = [] ∧
      alternativePathSearch listCollaborators 4 [(1, 1), (2, 2)] [(4, 1), (5, 2)] = some {} := by
  have hno : ∀ i t,
      stateAfter listCollaborators search_space_overlap i
        (initialState listCollaborators [(1, 1), (2, 2)] [(4, 1), (5, 2)]) = some t →
      loopGuard listCollaborators search_space_overlap t = true →
      passReportsNoMeeting listCollaborators t := by
    intro i t ht hg
    match i, ht with
    | 0, ht =>
      cases ht
      exact ⟨fun _ => ⟨rfl, rfl⟩, fun _ => ⟨rfl, rfl⟩⟩
    | 1, ht =>
      cases ht
      exact ⟨fun _ => ⟨rfl, rfl⟩, fun _ => ⟨rfl, rfl⟩⟩
    | 2, ht =>
      cases ht
      exact absurd hg (by decide)
    | n + 3, ht =>
      exact absurd ht (by
        show ¬ (none = some t)
        intro h
        cases h)
  have h := (no_route listCollaborators [(1, 1), (2, 2)] [(4, 1), (5, 2)] hno).1 4 _ rfl
  exact ⟨_, rfl, rfl, rfl, h.2.2.1, h.2.2.2.1, h.2.2.2.2.1, h.2.2.2.2.2⟩

/-- C6 as stated fails: on list heaps the searches meet (`weight` is 3, `middle` is
vertex 2) and the returned result carries no route. -/
theorem meeting_found_result_empty :
    ∃ s, harvest listCollaborators 5 [(1, 1), (2, 2)] [(2, 1), (1, 5)] = some s ∧
      s.weight ≠ INVALID_EDGE_WEIGHT ∧ s.middle ≠ SPECIAL_NODEID ∧
      alternativePathSearch listCollaborators 5 [(1, 1), (2, 2)] [(2, 1), (1, 5)]
        = some { routes := [] } :=
  ⟨_, rfl, by decide, by decide, by decide⟩

/-- C6 (amended): for every query in which a meeting vertex was found, the function
returns the empty result, the same value as when no meeting vertex was found. -/
theorem meeting_found_returns_empty {Heap : Type} (c : Collaborators Heap) (fuel : Nat)
    (forward_heap reverse_heap : Heap) (s : SearchState Heap)
    (hrun : harvest c fuel forward_heap reverse_heap = some s)
    (hweight : s.weight ≠ INVALID_EDGE_WEIGHT) (hmiddle : s.middle ≠ SPECIAL_NODEID) :
    alternativePathSearch c fuel forward_heap reverse_heap = some { routes := [] } := by
  unfold alternativePathSearch
  rw [hrun]
  show some (returnValue s) = _
  unfold returnValue
  rw [if_neg (by rintro (h | h); exact hweight h; exact hmiddle h)]

/-- The run of the amended C6 on list heaps. -/
theorem meeting_found_returns_empty_witness :
    ∃ s, harvest listCollaborators 5 [(1, 1), (2, 2)] [(2, 1), (1, 5)] = some s ∧
      s.weight = 3 ∧ s.middle = 2 ∧
      alternativePathSearch listCollaborators 5 [(1, 1), (2, 2)] [(2, 1), (1, 5)]
        = some { routes := [] } :=
  ⟨_, rfl, rfl, rfl,
    meeting_found_returns_empty listCollaborators 5 [(1, 1), (2, 2)] [(2, 1), (1, 5)] _ rfl
      (by decide) (by decide)⟩

/-- C7 (termination): under the relaxation-step contract the search loop stops after
a number of passes `i` bounded by the number of unsettled vertices, whatever the
seeded frontiers; every larger fuel gives the same exit state, and an exit without a
meeting happens with both frontiers empty. -/
theorem search_terminates {Heap : Type} (c : Collaborators Heap) (unsettled : Heap → Nat)
    (hc : StepContract c unsettled) (forward_heap reverse_heap : Heap) :
    ∃ i s', i ≤ unsettled forward_heap + unsettled reverse_heap ∧
      stateAfter c search_space_overlap i (initialState c forward_heap reverse_heap) = some s' ∧
      loopGuard c search_space_overlap s' = false ∧
      (∀ fuel, i ≤ fuel → searchLoop c search_space_overlap fuel
        (initialState c forward_heap reverse_heap) = some s') ∧
      (s'.weight = INVALID_EDGE_WEIGHT →
        c.Empty s'.forward_heap = true ∧ c.Empty s'.reverse_heap = true) := by
  obtain ⟨i, s', hi, hst, hex, hall⟩ := searchLoop_terminates c unsettled hc
    search_space_overlap (unsettled forward_heap + unsettled reverse_heap)
    (initialState c forward_heap reverse_heap) (le_refl _)
  exact ⟨i, s', hi, hst, hex, hall, fun hw => empty_of_exit_invalid c s' hw hex⟩

/-- The termination of C7 on list heaps with two and two pending entries. -/
theorem search_terminates_witness :
    ∃ i s', i ≤ 2 + 2 ∧
      stateAfter listCollaborators search_space_overlap i
        (initialState listCollaborators [(1, 1), (2, 2)] [(2, 1), (1, 5)]) = some s' ∧
      loopGuard listCollaborators search_space_overlap s' = false ∧
      (∀ fuel, i ≤ fuel → searchLoop listCollaborators search_space_overlap fuel
        (initialState listCollaborators [(1, 1), (2, 2)] [(2, 1), (1, 5)]) = some s') ∧
      (s'.weight = INVALID_EDGE_WEIGHT →
        listCollaborators.Empty s'.forward_heap = true ∧
          listCollaborators.Empty s'.reverse_heap = true) :=
  search_terminates listCollaborators List.length listCollaborators_contract
    [(1, 1), (2, 2)] [(2, 1), (1, 5)]

/-! ## The best weight over the passes -/

/-- C8 (weight monotonicity): when every relaxation step leaves `weight` unchanged or
smaller, `weight` starts as the invalid weight, its value after pass `i + 1` is at
most its value after pass `i`, and a pass whose steps leave `weight` unchanged
leaves it unchanged (the loop body writes `weight` only through the steps). -/
theorem weight_monotone {Heap : Type} (c : Collaborators Heap)
    (hstep : ∀ d a o m w, (c.routingStep d a o m w).weight ≤ w)
    (forward_heap reverse_heap : Heap) :
    (initialState c forward_heap reverse_heap).weight = INVALID_EDGE_WEIGHT ∧
    (∀ i t t',
      stateAfter c search_space_overlap i (initialState c forward_heap reverse_heap) = some t →
      stateAfter c search_space_overlap (i + 1) (initialState c forward_heap reverse_heap)
        = some t' →
      t'.weight ≤ t.weight) ∧
    (∀ s : SearchState Heap,
      (∀ d a o m, (c.routingStep d a o m s.weight).weight = s.weight) →
      (loopBody c s).weight = s.weight) := by
  refine ⟨rfl, ?_, ?_⟩
  · intro i t t' ht ht'
    obtain ⟨u, hu, _, rfl⟩ := stateAfter_succ c _ i _ t' ht'
    rw [ht] at hu
    cases hu
    exact loopBody_respects c (fun _ w _ w' => w' ≤ w) (fun _ _ => le_refl _)
      (fun _ _ _ _ _ _ h1 h2 => le_trans h2 h1) (fun d a o m w => hstep d a o m w) t
  · intro s hs
    exact loopBody_respects c (fun _ w _ w' => w = s.weight → w' = s.weight) (fun _ _ h => h)
      (fun _ _ _ _ _ _ h1 h2 h => h2 (h1 h)) (fun d a o m w h => by rw [h]; exact hs d a o m) s rfl

/-- On list heaps a step never raises `weight`. -/
theorem listStep_weight_le (d : Direction) (a o : ListHeap) (m : NodeID) (w : EdgeWeight) :
    (listCollaborators.routingStep d a o m w).weight ≤ w := by
  show (listStep d a o m w).weight ≤ w
  unfold listStep
  split
  · exact le_refl _
  · split
    · split_ifs with h
      · exact le_of_lt h
      · exact le_refl _
    · exact le_refl _

/-- The run of C8 on list heaps: `weight` is invalid before the first pass and 3 after it. -/
theorem weight_monotone_witness :
    ∃ t t',
      stateAfter listCollaborators search_space_overlap 0
        (initialState listCollaborators [(1, 1), (2, 2)] [(2, 1), (1, 5)]) = some t ∧
      stateAfter listCollaborators search_space_overlap 1
        (initialState listCollaborators [(1, 1), (2, 2)] [(2, 1), (1, 5)]) = some t' ∧
      t.weight = INVALID_EDGE_WEIGHT ∧ t'.weight = 3 ∧ t'.weight ≤ t.weight :=
  ⟨_, _, rfl, rfl, rfl, rfl,
    (weight_monotone listCollaborators listStep_weight_le
      [(1, 1), (2, 2)] [(2, 1), (1, 5)]).2.1 0 _ _ rfl rfl⟩

/-! ## The bound test with the invalid weight -/

theorem search_space_overlap_eq : search_space_overlap = 83 / 50 := by
  unfold search_space_overlap
  rw [Rat.mkRat_eq_div]
  norm_num

/-- C9: while `weight` is the invalid weight, the bound test of the loop condition is
true for every pair of cached minimum keys (the sum taken modulo `2 ^ 32`, the factor
being the rational 83/50), so the loop condition holds exactly when a frontier is
non-empty and fails exactly when both are empty. -/
theorem bound_holds_while_invalid {Heap : Type} (c : Collaborators Heap)
    (s : SearchState Heap) (hw : s.weight = INVALID_EDGE_WEIGHT) :
    (∀ a b : EdgeWeight,
      boundTest search_space_overlap a b s.weight = true ∧
      ((wrapInt32 (a + b) : Int) : ℚ) < ((s.weight : Int) : ℚ) * (83 / 50)) ∧
    (loopGuard c search_space_overlap s = true ↔
      (c.Empty s.forward_heap = false ∨ c.Empty s.reverse_heap = false)) ∧
    (loopGuard c search_space_overlap s = false ↔
      (c.Empty s.forward_heap = true ∧ c.Empty s.reverse_heap = true)) := by
  have hb : ∀ a b : EdgeWeight, boundTest search_space_overlap a b s.weight = true := by
    intro a b
    rw [hw]
    exact boundTest_invalid a b
  refine ⟨fun a b => ⟨hb a b, ?_⟩, ?_, ?_⟩
  · have h := (boundTest_iff search_space_overlap a b s.weight).1 (hb a b)
    rw [search_space_overlap_eq] at h
    exact h
  · unfold loopGuard
    rw [hb, Bool.and_true, decide_eq_true_iff]
    simp only [Collaborators.Empty, beq_eq_false_iff_ne, ne_eq]
    omega
  · unfold loopGuard
    rw [hb, Bool.and_true, decide_eq_false_iff_not]
    simp only [Collaborators.Empty, beq_iff_eq]
    omega

/-- The bound test of C9 at the seeded state of a list-heap run, and at the largest keys. -/
theorem bound_holds_while_invalid_witness :
    boundTest search_space_overlap 2147483647 2147483647
        (initialState listCollaborators [(1, 1)] []).weight = true ∧
      loopGuard listCollaborators search_space_overlap
        (initialState listCollaborators [(1, 1)] []) = true :=
  ⟨((bound_holds_while_invalid listCollaborators (initialState listCollaborators [(1, 1)] [])
      rfl).1 2147483647 2147483647).1,
    (bound_holds_while_invalid listCollaborators (initialState listCollaborators [(1, 1)] [])
      rfl).2.1.2 (Or.inl rfl)⟩

/-! ## The overlap factor as a parameter -/

/-- With a non-negative `weight`, a larger factor keeps the loop condition true. -/
theorem loopGuard_mono {Heap : Type} (c : Collaborators Heap) (f1 f2 : ℚ) (hf : f1 ≤ f2)
    (s : SearchState Heap) (hw : 0 ≤ s.weight) (hg : loopGuard c f1 s = true) :
    loopGuard c f2 s = true := by
  unfold loopGuard at hg ⊢
  rw [Bool.and_eq_true] at hg ⊢
  refine ⟨hg.1, ?_⟩
  rw [boundTest_iff] at *
  have hw' : (0 : ℚ) ≤ ((s.weight : Int) : ℚ) := by exact_mod_cast hw
  exact lt_of_lt_of_le hg.2 (mul_le_mul_of_nonneg_left hf hw')

theorem loopBody_weight_nonneg {Heap : Type} (c : Collaborators Heap)
    (hnonneg : ∀ d a o m w, 0 ≤ w → 0 ≤ (c.routingStep d a o m w).weight)
    (s : SearchState Heap) (hw : 0 ≤ s.weight) : 0 ≤ (loopBody c s).weight :=
  loopBody_respects c (fun _ w _ w' => 0 ≤ w → 0 ≤ w') (fun _ _ h => h)
    (fun _ _ _ _ _ _ h1 h2 h => h2 (h1 h)) (fun d a o m w => hnonneg d a o m w) s hw

/-- From a common state with non-negative weights, the loop with the smaller factor
stops no later than the loop with the larger factor, on a beginning of its
candidate list. -/
theorem searchLoop_overlap_mono {Heap : Type} (c : Collaborators Heap)
    (hnonneg : ∀ d a o m w, 0 ≤ w → 0 ≤ (c.routingStep d a o m w).weight)
    (f1 f2 : ℚ) (hf : f1 ≤ f2) (fuel : Nat) :
    ∀ s s2 : SearchState Heap, 0 ≤ s.weight → searchLoop c f2 fuel s = some s2 →
      ∃ s1, searchLoop c f1 fuel s = some s1 ∧ s1.candidates <+: s2.candidates := by
  induction fuel with
  | zero =>
    intro s s2 hw h2
    have hgrow := searchLoop_grows c f2 0 s s2 h2
    unfold searchLoop at h2
    split_ifs at h2 with hg2
    have hg1 : loopGuard c f1 s = false := by
      by_contra hcon
      exact hg2 (loopGuard_mono c f1 f2 hf s hw (by simpa using hcon))
    exact ⟨s, searchLoop_of_guard_false c f1 0 s hg1, hgrow⟩
  | succ n ih =>
    intro s s2 hw h2
    have hgrow := searchLoop_grows c f2 (n + 1) s s2 h2
    by_cases hg1 : loopGuard c f1 s = true
    · have hg2 := loopGuard_mono c f1 f2 hf s hw hg1
      unfold searchLoop at h2
      rw [if_pos hg2] at h2
      obtain ⟨s1, h1, hpre⟩ := ih (loopBody c s) s2 (loopBody_weight_nonneg c hnonneg s hw) h2
      refine ⟨s1, ?_, hpre⟩
      show (if loopGuard c f1 s then searchLoop c f1 n (loopBody c s) else some s) = _
      rw [if_pos hg1]
      exact h1
    · exact ⟨s, searchLoop_of_guard_false c f1 (n + 1) s (by simpa using hg1), hgrow⟩

/-- C10 (overlap-factor monotonicity): for a relaxation step that keeps the best
weight non-negative and any seeded frontiers, when the loop with factor 1.66 stops, the
loop with factor 1.0 stops as well, and its raw candidate sequence is a beginning of
the raw candidate sequence for factor 1.66, hence not longer. -/
theorem overlap_monotone {Heap : Type} (c : Collaborators Heap)
    (hnonneg : ∀ d a o m w, 0 ≤ w → 0 ≤ (c.routingStep d a o m w).weight)
    (forward_heap reverse_heap : Heap) (fuel : Nat) (s2 : SearchState Heap)
    (hrun : searchLoop c search_space_overlap fuel (initialState c forward_heap reverse_heap)
      = some s2) :
    ∃ s1, searchLoop c 1 fuel (initialState c forward_heap reverse_heap) = some s1 ∧
      s1.candidates <+: s2.candidates ∧ s1.candidates.length ≤ s2.candidates.length := by
  have hf : (1 : ℚ) ≤ search_space_overlap := by
    rw [search_space_overlap_eq]
    norm_num
  have hw : (0 : Int) ≤ (initialState c forward_heap reverse_heap).weight := by
    show (0 : Int) ≤ INVALID_EDGE_WEIGHT
    decide
  obtain ⟨s1, h1, hpre⟩ := searchLoop_overlap_mono c hnonneg 1 search_space_overlap hf fuel
    (initialState c forward_heap reverse_heap) s2 hw hrun
  exact ⟨s1, h1, hpre, hpre.length_le⟩

/-- On list heaps a step keeps a non-negative `weight` non-negative. -/
theorem listStep_weight_nonneg (d : Direction) (a o : ListHeap) (m : NodeID) (w : EdgeWeight)
    (hw : 0 ≤ w) : 0 ≤ (listCollaborators.routingStep d a o m w).weight := by
  show 0 ≤ (listStep d a o m w).weight
  unfold listStep
  split
  · exact hw
  · split
    · split_ifs
      · show (0 : Int) ≤ _ + _
        omega
      · exact hw
    · exact hw

/-- The run of C10 on list heaps: factor 1.66 harvests vertex 2 twice, factor 1.0 once. -/
theorem overlap_monotone_witness :
    ∃ s2 s1,
      searchLoop listCollaborators search_space_overlap 5
        (initialState listCollaborators [(1, 1), (2, 2), (3, 3)] [(2, 1), (3, 1), (1, 5)])
        = some s2 ∧
      searchLoop listCollaborators 1 5
        (initialState listCollaborators [(1, 1), (2, 2), (3, 3)] [(2, 1), (3, 1), (1, 5)])
        = some s1 ∧
      s2.candidates = [2, 2] ∧ s1.candidates = [2] ∧
      s1.candidates <+: s2.candidates ∧ s1.candidates.length ≤ s2.candidates.length := by
  obtain ⟨s1, h1, hpre, hlen⟩ := overlap_monotone listCollaborators listStep_weight_nonneg
    [(1, 1), (2, 2), (3, 3)] [(2, 1), (3, 1), (1, 5)] 5 _ rfl
  refine ⟨_, s1, rfl, h1, rfl, ?_, hpre, hlen⟩
  have h1' : searchLoop listCollaborators 1 5
      (initialState listCollaborators [(1, 1), (2, 2), (3, 3)] [(2, 1), (3, 1), (1, 5)])
      = some _ := rfl
  rw [h1'] at h1
  cases h1
  rfl

/-! ## The returned value -/

theorem returnValue_eq {Heap : Type} (s : SearchState Heap) : returnValue s = {} := by
  unfold returnValue
  split_ifs <;> rfl

/-- C11: `alternativePathSearch` returns the empty result for every input: both return
statements give `{}` whatever the state before them (meeting found or not, any
candidates), a run that leaves the loop returns `{}`, and under the step contract the
run does leave the loop. -/
theorem always_returns_empty {Heap : Type} (c : Collaborators Heap)
    (forward_heap reverse_heap : Heap) :
    (∀ s : SearchState Heap, returnValue s = {}) ∧
    (∀ fuel r, alternativePathSearch c fuel forward_heap reverse_heap = some r → r = {}) ∧
    (∀ unsettled, StepContract c unsettled →
      ∀ fuel, unsettled forward_heap + unsettled reverse_heap ≤ fuel →
        alternativePathSearch c fuel forward_heap reverse_heap = some {}) := by
  refine ⟨returnValue_eq, ?_, ?_⟩
  · intro fuel r h
    unfold alternativePathSearch at h
    rcases Option.map_eq_some'.1 h with ⟨s, _, hs⟩
    rw [← hs]
    exact returnValue_eq s
  · intro unsettled hc fuel hfuel
    obtain ⟨i, s', hi, _, _, hall⟩ := searchLoop_terminates c unsettled hc search_space_overlap
      (unsettled forward_heap + unsettled reverse_heap)
      (initialState c forward_heap reverse_heap) (le_refl _)
    have hloop := hall fuel (le_trans hi hfuel)
    unfold alternativePathSearch harvest harvestWith
    rw [hloop]
    show some (returnValue _) = some {}
    rw [returnValue_eq]

/-- The empty result of C11 on two list-heap runs, one with a meeting and one without. -/
theorem always_returns_empty_witness :
    alternativePathSearch listCollaborators 4 [(1, 1), (2, 2)] [(2, 1), (1, 5)] = some {} ∧
      alternativePathSearch isolatedCollaborators 4 [(1, 1), (2, 2)] [(2, 1), (1, 5)]
        = some {} :=
  ⟨(always_returns_empty listCollaborators [(1, 1), (2, 2)] [(2, 1), (1, 5)]).2.2
      List.length listCollaborators_contract 4 (by decide),
    (always_returns_empty isolatedCollaborators [(1, 1), (2, 2)] [(2, 1), (1, 5)]).2.2
      List.length isolatedCollaborators_contract 4 (by decide)⟩

/-! ## The cached minimum keys -/

/-- A property kept by every pass through the loop body holds after any number of
passes. -/
theorem stateAfter_invariant {Heap : Type} (c : Collaborators Heap) (overlap : ℚ)
    (P : SearchState Heap → Prop) (hP : ∀ s, P s → P (loopBody c s)) (i : Nat) :
    ∀ s t : SearchState Heap, stateAfter c overlap i s = some t → P s → P t := by
  induction i with
  | zero =>
    intro s t h hs
    unfold stateAfter at h
    cases h
    exact hs
  | succ n ih =>
    intro s t h hs
    unfold stateAfter at h
    split_ifs at h
    exact ih _ _ h (hP s hs)

/-- The property of C12 at one state: each cached minimum key is the minimum key of its
frontier when that frontier is non-empty. -/
theorem forwardHalf_cached {Heap : Type} (c : Collaborators Heap)
    (hother : ∀ d a o m w, (c.routingStep d a o m w).other = o) (s : SearchState Heap)
    (hs : (c.Empty s.forward_heap = false → s.forward_heap_min = c.MinKey s.forward_heap) ∧
      (c.Empty s.reverse_heap = false → s.reverse_heap_min = c.MinKey s.reverse_heap)) :
    (c.Empty (forwardHalf c s).forward_heap = false →
        (forwardHalf c s).forward_heap_min = c.MinKey (forwardHalf c s).forward_heap) ∧
      (c.Empty (forwardHalf c s).reverse_heap = false →
        (forwardHalf c s).reverse_heap_min = c.MinKey (forwardHalf c s).reverse_heap) := by
  unfold forwardHalf
  dsimp only
  split_ifs with h1 h2
  · exact hs
  · refine ⟨fun h => ?_, fun h => ?_⟩
    · exact absurd h2 (by simpa using h)
    · have h' : c.Empty s.reverse_heap = false := by simpa [hother] using h
      simpa [hother] using hs.2 h'
  · refine ⟨fun _ => rfl, fun h => ?_⟩
    have h' : c.Empty s.reverse_heap = false := by simpa [hother] using h
    simpa [hother] using hs.2 h'

theorem reverseHalf_cached {Heap : Type} (c : Collaborators Heap)
    (hother : ∀ d a o m w, (c.routingStep d a o m w).other = o) (s : SearchState Heap)
    (hs : (c.Empty s.forward_heap = false → s.forward_heap_min = c.MinKey s.forward_heap) ∧
      (c.Empty s.reverse_heap = false → s.reverse_heap_min = c.MinKey s.reverse_heap)) :
    (c.Empty (reverseHalf c s).forward_heap = false →
        (reverseHalf c s).forward_heap_min = c.MinKey (reverseHalf c s).forward_heap) ∧
      (c.Empty (reverseHalf c s).reverse_heap = false →
        (reverseHalf c s).reverse_heap_min = c.MinKey (reverseHalf c s).reverse_heap) := by
  unfold reverseHalf
  dsimp only
  split_ifs with h1 h2
  · exact hs
  · refine ⟨fun h => ?_, fun h => ?_⟩
    · have h' : c.Empty s.forward_heap = false := by simpa [hother] using h
      simpa [hother] using hs.1 h'
    · exact absurd h2 (by simpa using h)
  · refine ⟨fun h => ?_, fun _ => rfl⟩
    have h' : c.Empty s.forward_heap = false := by simpa [hother] using h
    simpa [hother] using hs.1 h'

theorem pushCandidate_cached {Heap : Type} (s : SearchState Heap) :
    (pushCandidate s).forward_heap_min = s.forward_heap_min ∧
      (pushCandidate s).reverse_heap_min = s.reverse_heap_min := by
  unfold pushCandidate
  split_ifs <;> exact ⟨rfl, rfl⟩

theorem loopBody_cached {Heap : Type} (c : Collaborators Heap)
    (hother : ∀ d a o m w, (c.routingStep d a o m w).other = o) (s : SearchState Heap)
    (hs : (c.Empty s.forward_heap = false → s.forward_heap_min = c.MinKey s.forward_heap) ∧
      (c.Empty s.reverse_heap = false → s.reverse_heap_min = c.MinKey s.reverse_heap)) :
    (c.Empty (loopBody c s).forward_heap = false →
        (loopBody c s).forward_heap_min = c.MinKey (loopBody c s).forward_heap) ∧
      (c.Empty (loopBody c s).reverse_heap = false →
        (loopBody c s).reverse_heap_min = c.MinKey (loopBody c s).reverse_heap) := by
  unfold loopBody
  rw [(pushCandidate_heaps _).1, (pushCandidate_heaps _).2, (pushCandidate_cached _).1,
    (pushCandidate_cached _).2]
  exact reverseHalf_cached c hother _ (forwardHalf_cached c hother _ hs)

/-- C12 (cached minimum keys): when a relaxation step leaves the heap passed second
unchanged, at every evaluation of the loop condition (after any number `i` of
passes) the cached minimum key of a non-empty frontier is its current `MinKey`. -/
theorem cached_min_keys {Heap : Type} (c : Collaborators Heap)
    (hother : ∀ d a o m w, (c.routingStep d a o m w).other = o)
    (forward_heap reverse_heap : Heap) (i : Nat) (t : SearchState Heap)
    (hpass : stateAfter c search_space_overlap i (initialState c forward_heap reverse_heap)
      = some t) :
    (c.Empty t.forward_heap = false → t.forward_heap_min = c.MinKey t.forward_heap) ∧
    (c.Empty t.reverse_heap = false → t.reverse_heap_min = c.MinKey t.reverse_heap) :=
  stateAfter_invariant c search_space_overlap
    (fun s => (c.Empty s.forward_heap = false → s.forward_heap_min = c.MinKey s.forward_heap) ∧
      (c.Empty s.reverse_heap = false → s.reverse_heap_min = c.MinKey s.reverse_heap))
    (loopBody_cached c hother) i _ t hpass ⟨fun _ => rfl, fun _ => rfl⟩

/-- On list heaps a step leaves the heap passed second unchanged. -/
theorem listStep_other (d : Direction) (a o : ListHeap) (m : NodeID) (w : EdgeWeight) :
    (listCollaborators.routingStep d a o m w).other = o := by
  show (listStep d a o m w).other = o
  unfold listStep
  split
  · rfl
  · split
    · split_ifs <;> rfl
    · rfl

/-- The cached keys of C12 on list heaps after the first pass: 2 and 5, the keys of the
entries left at the heads of the two heaps. -/
theorem cached_min_keys_witness :
    ∃ t,
      stateAfter listCollaborators search_space_overlap 1
        (initialState listCollaborators [(1, 1), (2, 2)] [(2, 1), (1, 5)]) = some t ∧
      t.forward_heap = [(2, 2)] ∧ t.reverse_heap = [(1, 5)] ∧
      t.forward_heap_min = 2 ∧ t.reverse_heap_min = 5 ∧
      (listCollaborators.Empty t.forward_heap = false →
        t.forward_heap_min = listCollaborators.MinKey t.forward_heap) ∧
      (listCollaborators.Empty t.reverse_heap = false →
        t.reverse_heap_min = listCollaborators.MinKey t.reverse_heap) :=
  ⟨_, rfl, rfl, rfl, rfl, rfl,
    cached_min_keys listCollaborators listStep_other [(1, 1), (2, 2)] [(2, 1), (1, 5)] 1 _ rfl⟩

/-! ## Pushing on every pass and pushing on change -/

theorem mem_pushEveryPass (middles : List NodeID) (x : NodeID) :
    x ∈ pushEveryPass middles ↔ x ∈ middles ∧ x ≠ SPECIAL_NODEID := by
  induction middles with
  | nil => simp [pushEveryPass]
  | cons m rest ih =>
    unfold pushEveryPass
    by_cases hm : m ≠ SPECIAL_NODEID
    · rw [if_pos hm, List.mem_cons, List.mem_cons, ih]
      constructor
      · rintro (h | h)
        · exact ⟨Or.inl h, h ▸ hm⟩
        · exact ⟨Or.inr h.1, h.2⟩
      · rintro ⟨h | h, hx⟩
        · exact Or.inl h
        · exact Or.inr ⟨h, hx⟩
    · rw [if_neg hm, List.mem_cons, ih]
      constructor
      · rintro ⟨h, hx⟩
        exact ⟨Or.inr h, hx⟩
      · rintro ⟨h | h, hx⟩
        · exact absurd (h ▸ hx) hm
        · exact ⟨h, hx⟩

theorem mem_pushOnChange_imp (previous : NodeID) (middles : List NodeID) (x : NodeID) :
    x ∈ pushOnChange previous middles → x ∈ middles ∧ x ≠ SPECIAL_NODEID := by
  induction middles generalizing previous with
  | nil => simp [pushOnChange]
  | cons m rest ih =>
    unfold pushOnChange
    split_ifs with hm
    · intro h
      rcases List.mem_cons.1 h with h | h
      · exact ⟨h ▸ List.mem_cons_self _ _, h ▸ hm.1⟩
      · exact ⟨List.mem_cons_of_mem _ (ih m h).1, (ih m h).2⟩
    · intro h
      exact ⟨List.mem_cons_of_mem _ (ih m h).1, (ih m h).2⟩

/-- A value of the sequence that is not the sentinel is pushed at its first occurrence
unless it equals the value before the sequence. -/
theorem mem_pushOnChange_of (previous : NodeID) (middles : List NodeID) (x : NodeID)
    (hx : x ∈ middles) (hs : x ≠ SPECIAL_NODEID) (hp : x ≠ previous) :
    x ∈ pushOnChange previous middles := by
  induction middles generalizing previous with
  | nil => cases hx
  | cons m rest ih =>
    unfold pushOnChange
    by_cases hxm : x = m
    · subst hxm
      rw [if_pos ⟨hs, hp⟩]
      exact List.mem_cons_self _ _
    · have hrest : x ∈ rest := by
        rcases List.mem_cons.1 hx with h | h
        · exact absurd h hxm
        · exact h
      split_ifs
      · exact List.mem_cons_of_mem _ (ih m hrest hxm)
      · exact ih m hrest hxm

/-- Two candidate lists with the same elements have the same deduplicated list. -/
theorem dedup_congr (l1 l2 : List NodeID) (h : ∀ x, x ∈ l1 ↔ x ∈ l2) :
    dedup l1 = dedup l2 := by
  have h1 := dedup_strict l1
  have h2 := dedup_strict l2
  have hperm : (dedup l1).Perm (dedup l2) := by
    rw [List.perm_ext_iff_of_nodup (h1.imp (fun hlt => ne_of_lt hlt))
      (h2.imp (fun hlt => ne_of_lt hlt))]
    intro x
    rw [mem_dedup, mem_dedup]
    exact h x
  exact List.eq_of_perm_of_sorted hperm h1 h2

theorem pushEveryPass_cons (m : NodeID) (rest : List NodeID) :
    pushEveryPass (m :: rest) = pushEveryPass [m] ++ pushEveryPass rest := by
  by_cases hm : m ≠ SPECIAL_NODEID
  · have h1 : pushEveryPass (m :: rest) = m :: pushEveryPass rest := by
      show (if m ≠ SPECIAL_NODEID then m :: pushEveryPass rest else pushEveryPass rest) = _
      rw [if_pos hm]
    have h2 : pushEveryPass [m] = [m] := by
      show (if m ≠ SPECIAL_NODEID then m :: pushEveryPass [] else pushEveryPass []) = _
      rw [if_pos hm]
      rfl
    rw [h1, h2]
    rfl
  · have h1 : pushEveryPass (m :: rest) = pushEveryPass rest := by
      show (if m ≠ SPECIAL_NODEID then m :: pushEveryPass rest else pushEveryPass rest) = _
      rw [if_neg hm]
    have h2 : pushEveryPass [m] = [] := by
      show (if m ≠ SPECIAL_NODEID then m :: pushEveryPass [] else pushEveryPass []) = _
      rw [if_neg hm]
      rfl
    rw [h1, h2]
    rfl

theorem loopBody_candidates {Heap : Type} (c : Collaborators Heap) (s : SearchState Heap) :
    (loopBody c s).candidates = s.candidates ++ pushEveryPass [(loopBody c s).middle] := by
  unfold loopBody
  rw [pushCandidate_middle]
  unfold pushCandidate pushEveryPass
  split_ifs
  · show _ ++ [_] = _ ++ [_]
    rw [reverseHalf_candidates, forwardHalf_candidates]
  · show _ = _ ++ pushEveryPass []
    rw [reverseHalf_candidates, forwardHalf_candidates]
    simp [pushEveryPass]

/-- The raw candidate list at loop exit is the list before the loop followed by the
non-sentinel end-of-pass values of `middle`. -/
theorem searchLoop_candidates {Heap : Type} (c : Collaborators Heap) (overlap : ℚ)
    (fuel : Nat) : ∀ s s' : SearchState Heap, searchLoop c overlap fuel s = some s' →
      s'.candidates = s.candidates ++ pushEveryPass (passMiddles c overlap fuel s) := by
  induction fuel with
  | zero =>
    intro s s' h
    unfold searchLoop at h
    split_ifs at h
    cases h
    simp [passMiddles, pushEveryPass]
  | succ n ih =>
    intro s s' h
    unfold searchLoop at h
    unfold passMiddles
    split_ifs at h ⊢ with hg
    · rw [ih _ _ h, loopBody_candidates, List.append_assoc, ← pushEveryPass_cons]
    · cases h
      simp [pushEveryPass]

/-- C13 (push-on-change equivalence): for every sequence of end-of-pass values of
`middle`, pushing on every pass and pushing only on a change give the same
deduplicated candidates; and the deduplicated candidates of every run are those of
pushing on change over the end-of-pass values of `middle` of that run. -/
theorem push_on_change_equiv {Heap : Type} (c : Collaborators Heap) :
    (∀ middles : List NodeID,
      dedup (pushEveryPass middles) = dedup (pushOnChange SPECIAL_NODEID middles)) ∧
    (∀ fuel forward_heap reverse_heap s,
      harvest c fuel forward_heap reverse_heap = some s →
      s.candidates = dedup (pushOnChange SPECIAL_NODEID
        (passMiddles c search_space_overlap fuel (initialState c forward_heap reverse_heap)))) := by
  have key : ∀ middles : List NodeID,
      dedup (pushEveryPass middles) = dedup (pushOnChange SPECIAL_NODEID middles) := by
    intro middles
    apply dedup_congr
    intro x
    rw [mem_pushEveryPass]
    constructor
    · rintro ⟨hx, hs⟩
      exact mem_pushOnChange_of _ _ _ hx hs hs
    · exact mem_pushOnChange_imp _ _ _
  refine ⟨key, ?_⟩
  intro fuel forward_heap reverse_heap s hrun
  obtain ⟨s', hloop, rfl⟩ := harvest_eq_some c _ fuel _ _ s hrun
  show dedup s'.candidates = _
  rw [searchLoop_candidates c _ fuel _ _ hloop, ← key]
  rfl

theorem pushEveryPass_example :
    pushEveryPass [SPECIAL_NODEID, 7, 7, 3, 7, SPECIAL_NODEID, 3] = [7, 7, 3, 7, 3] ∧
      pushOnChange SPECIAL_NODEID [SPECIAL_NODEID, 7, 7, 3, 7, SPECIAL_NODEID, 3] = [7, 3, 7, 3] ∧
      dedup [7, 7, 3, 7, 3] = [3, 7] ∧ dedup [7, 3, 7, 3] = [3, 7] := by
  decide

/-! ## The order of the relaxation steps -/

theorem stepDirections_append (l1 l2 : List Event) :
    stepDirections (l1 ++ l2) = stepDirections l1 ++ stepDirections l2 := by
  induction l1 with
  | nil => rfl
  | cons e rest ih =>
    cases e with
    | iteration => exact ih
    | MinKey d b => exact ih
    | routingStep d b m w =>
      show d :: stepDirections (rest ++ l2) = d :: stepDirections rest ++ stepDirections l2
      rw [ih]
      rfl

theorem forwardHalf_directions {Heap : Type} (c : Collaborators Heap) (s : SearchState Heap) :
    stepDirections (forwardHalf c s).events = stepDirections s.events ++
      (if c.Empty s.forward_heap then [] else [Direction.FORWARD_DIRECTION]) := by
  unfold forwardHalf
  dsimp only
  split_ifs
  · simp
  · rw [stepDirections_append]
    rfl
  · rw [stepDirections_append, stepDirections_append]
    show _ ++ [Direction.FORWARD_DIRECTION] ++ [] = _
    simp

theorem reverseHalf_directions {Heap : Type} (c : Collaborators Heap) (s : SearchState Heap) :
    stepDirections (reverseHalf c s).events = stepDirections s.events ++
      (if c.Empty s.reverse_heap then [] else [Direction.REVERSE_DIRECTION]) := by
  unfold reverseHalf
  dsimp only
  split_ifs
  · simp
  · rw [stepDirections_append]
    rfl
  · rw [stepDirections_append, stepDirections_append]
    show _ ++ [Direction.REVERSE_DIRECTION] ++ [] = _
    simp

/-- The steps of one pass: the forward step, run unless the forward frontier is empty,
then the reverse step, run unless the reverse frontier is empty. -/
theorem loopBody_directions {Heap : Type} (c : Collaborators Heap) (s : SearchState Heap) :
    ∃ block, stepDirections (loopBody c s).events = stepDirections s.events ++ block ∧
      (block = [Direction.FORWARD_DIRECTION, Direction.REVERSE_DIRECTION] ∨
        (block = [Direction.FORWARD_DIRECTION] ∧ c.Empty (loopBody c s).reverse_heap = true) ∨
        (block = [Direction.REVERSE_DIRECTION] ∧ c.Empty s.forward_heap = true) ∨
        (block = [] ∧ c.Empty s.forward_heap = true ∧ c.Empty s.reverse_heap = true)) := by
  unfold loopBody
  rw [pushCandidate_events, (pushCandidate_heaps _).2]
  set s0 : SearchState Heap := { s with events := s.events ++ [Event.iteration] } with hs0
  have h0 : stepDirections s0.events = stepDirections s.events := by
    rw [hs0]
    show stepDirections (s.events ++ [Event.iteration]) = _
    rw [stepDirections_append]
    show _ ++ [] = _
    simp
  have hF := forwardHalf_directions c s0
  have hR := reverseHalf_directions c (forwardHalf c s0)
  rw [h0] at hF
  by_cases hf : c.Empty s.forward_heap = true
  · have hf0 : c.Empty s0.forward_heap = true := hf
    have hs1 : forwardHalf c s0 = s0 := forwardHalf_of_empty c s0 hf0
    rw [hs1] at hR ⊢
    rw [h0] at hR
    by_cases hr : c.Empty s.reverse_heap = true
    · have hr0 : c.Empty s0.reverse_heap = true := hr
      rw [if_pos hr0] at hR
      exact ⟨[], hR, Or.inr (Or.inr (Or.inr ⟨rfl, hf, hr⟩))⟩
    · have hr0 : ¬ c.Empty s0.reverse_heap = true := hr
      rw [if_neg hr0] at hR
      exact ⟨[Direction.REVERSE_DIRECTION], hR, Or.inr (Or.inr (Or.inl ⟨rfl, hf⟩))⟩
  · have hf0 : ¬ c.Empty s0.forward_heap = true := hf
    rw [if_neg hf0] at hF
    by_cases hr : c.Empty (forwardHalf c s0).reverse_heap = true
    · rw [if_pos hr, hF] at hR
      refine ⟨[Direction.FORWARD_DIRECTION], by simpa using hR, Or.inr (Or.inl ⟨rfl, ?_⟩)⟩
      rw [reverseHalf_of_empty c _ hr]
      exact hr
    · rw [if_neg hr, hF] at hR
      exact ⟨[Direction.FORWARD_DIRECTION, Direction.REVERSE_DIRECTION],
        by simpa using hR, Or.inl rfl⟩

/-- While the loop condition holds, a pass runs at least one step. -/
theorem loopBody_directions_guard {Heap : Type} (c : Collaborators Heap) (overlap : ℚ)
    (s : SearchState Heap) (hg : loopGuard c overlap s = true) :
    ∃ block, stepDirections (loopBody c s).events = stepDirections s.events ++ block ∧
      (block = [Direction.FORWARD_DIRECTION, Direction.REVERSE_DIRECTION] ∨
        (block = [Direction.FORWARD_DIRECTION] ∧ c.Empty (loopBody c s).reverse_heap = true) ∨
        (block = [Direction.REVERSE_DIRECTION] ∧ c.Empty s.forward_heap = true)) := by
  obtain ⟨block, hb, h | h | h | ⟨_, hf, hr⟩⟩ := loopBody_directions c s
  · exact ⟨block, hb, Or.inl h⟩
  · exact ⟨block, hb, Or.inr (Or.inl h)⟩
  · exact ⟨block, hb, Or.inr (Or.inr h)⟩
  · exfalso
    unfold loopGuard at hg
    rw [Bool.and_eq_true, decide_eq_true_iff] at hg
    simp only [Collaborators.Empty, beq_iff_eq] at hf hr
    omega

/-- C14 as stated fails: with one forward entry and three reverse entries and no
meeting, the steps run are forward, reverse, reverse, reverse. -/
theorem same_direction_twice :
    ∃ s, harvest isolatedCollaborators 5 [(1, 1)] [(4, 1), (5, 2), (6, 3)] = some s ∧
      stepDirections s.events = [Direction.FORWARD_DIRECTION, Direction.REVERSE_DIRECTION,
        Direction.REVERSE_DIRECTION, Direction.REVERSE_DIRECTION] ∧
      ¬ List.Chain' (fun d1 d2 => d1 ≠ d2) (stepDirections s.events) := by
  refine ⟨_, rfl, rfl, ?_⟩
  intro h
  have h' : List.Chain' (fun d1 d2 : Direction => d1 ≠ d2)
      [Direction.FORWARD_DIRECTION, Direction.REVERSE_DIRECTION,
        Direction.REVERSE_DIRECTION, Direction.REVERSE_DIRECTION] := h
  simp [List.chain'_cons] at h'

/-- C14 (amended): no step runs before the loop, and every pass of a run adds to the
sequence of step directions either forward then reverse, or forward alone, the reverse
frontier being empty at the end of the pass, or reverse alone, the forward frontier
being empty at the start of the pass. -/
theorem step_order {Heap : Type} (c : Collaborators Heap) (forward_heap reverse_heap : Heap) :
    stepDirections (initialState c forward_heap reverse_heap).events = [] ∧
    (∀ i t t',
      stateAfter c search_space_overlap i (initialState c forward_heap reverse_heap) = some t →
      stateAfter c search_space_overlap (i + 1) (initialState c forward_heap reverse_heap)
        = some t' →
      ∃ block, stepDirections t'.events = stepDirections t.events ++ block ∧
        (block = [Direction.FORWARD_DIRECTION, Direction.REVERSE_DIRECTION] ∨
          (block = [Direction.FORWARD_DIRECTION] ∧ c.Empty t'.reverse_heap = true) ∨
          (block = [Direction.REVERSE_DIRECTION] ∧ c.Empty t.forward_heap = true))) := by
  refine ⟨rfl, ?_⟩
  intro i t t' ht ht'
  obtain ⟨u, hu, hg, rfl⟩ := stateAfter_succ c _ i _ t' ht'
  rw [ht] at hu
  cases hu
  exact loopBody_directions_guard c _ t hg

/-- The passes of the run of the amended C14 with one forward and three reverse
entries: the first pass adds forward then reverse, the second adds reverse alone. -/
theorem step_order_witness :
    ∃ t0 t1 t2,
      stateAfter isolatedCollaborators search_space_overlap 0
        (initialState isolatedCollaborators [(1, 1)] [(4, 1), (5, 2), (6, 3)]) = some t0 ∧
      stateAfter isolatedCollaborators search_space_overlap 1
        (initialState isolatedCollaborators [(1, 1)] [(4, 1), (5, 2), (6, 3)]) = some t1 ∧
      stateAfter isolatedCollaborators search_space_overlap 2
        (initialState isolatedCollaborators [(1, 1)] [(4, 1), (5, 2), (6, 3)]) = some t2 ∧
      stepDirections t1.events
        = [Direction.FORWARD_DIRECTION, Direction.REVERSE_DIRECTION] ∧
      stepDirections t2.events = [Direction.FORWARD_DIRECTION, Direction.REVERSE_DIRECTION,
        Direction.REVERSE_DIRECTION] ∧
      (∃ block, stepDirections t2.events = stepDirections t1.events ++ block ∧
        (block = [Direction.FORWARD_DIRECTION, Direction.REVERSE_DIRECTION] ∨
          (block = [Direction.FORWARD_DIRECTION] ∧
            isolatedCollaborators.Empty t2.reverse_heap = true) ∨
          (block = [Direction.REVERSE_DIRECTION] ∧
            isolatedCollaborators.Empty t1.forward_heap = true))) :=
  ⟨_, _, _, rfl, rfl, rfl, rfl, rfl,
    (step_order isolatedCollaborators [(1, 1)] [(4, 1), (5, 2), (6, 3)]).2 1 _ _ rfl rfl⟩

/-! ## Calls on non-empty heaps only -/

theorem forwardHalf_onNonEmpty {Heap : Type} (c : Collaborators Heap) (s : SearchState Heap)
    (hs : ∀ e ∈ s.events, e.onNonEmpty = true) :
    ∀ e ∈ (forwardHalf c s).events, e.onNonEmpty = true := by
  intro e he
  unfold forwardHalf at he
  dsimp only at he
  split_ifs at he with h1 h2
  · exact hs e he
  · rcases List.mem_append.1 he with h | h
    · exact hs e h
    · rw [List.mem_singleton.1 h]
      simpa [Event.onNonEmpty] using h1
  · rcases List.mem_append.1 he with h | h
    · rcases List.mem_append.1 h with h | h
      · exact hs e h
      · rw [List.mem_singleton.1 h]
        simpa [Event.onNonEmpty] using h1
    · rw [List.mem_singleton.1 h]
      simpa [Event.onNonEmpty] using h2

theorem reverseHalf_onNonEmpty {Heap : Type} (c : Collaborators Heap) (s : SearchState Heap)
    (hs : ∀ e ∈ s.events, e.onNonEmpty = true) :
    ∀ e ∈ (reverseHalf c s).events, e.onNonEmpty = true := by
  intro e he
  unfold reverseHalf at he
  dsimp only at he
  split_ifs at he with h1 h2
  · exact hs e he
  · rcases List.mem_append.1 he with h | h
    · exact hs e h
    · rw [List.mem_singleton.1 h]
      simpa [Event.onNonEmpty] using h1
  · rcases List.mem_append.1 he with h | h
    · rcases List.mem_append.1 h with h | h
      · exact hs e h
      · rw [List.mem_singleton.1 h]
        simpa [Event.onNonEmpty] using h1
    · rw [List.mem_singleton.1 h]
      simpa [Event.onNonEmpty] using h2

theorem loopBody_onNonEmpty {Heap : Type} (c : Collaborators Heap) (s : SearchState Heap)
    (hs : ∀ e ∈ s.events, e.onNonEmpty = true) :
    ∀ e ∈ (loopBody c s).events, e.onNonEmpty = true := by
  unfold loopBody
  rw [pushCandidate_events]
  apply reverseHalf_onNonEmpty
  apply forwardHalf_onNonEmpty
  intro e he
  rcases List.mem_append.1 he with h | h
  · exact hs e h
  · rw [List.mem_singleton.1 h]
    rfl

theorem initialState_onNonEmpty {Heap : Type} (c : Collaborators Heap)
    (forward_heap reverse_heap : Heap)
    (hforward : c.Empty forward_heap = false) (hreverse : c.Empty reverse_heap = false) :
    ∀ e ∈ (initialState c forward_heap reverse_heap).events, e.onNonEmpty = true := by
  intro e he
  have he' : e ∈ [Event.MinKey Direction.FORWARD_DIRECTION (c.Empty forward_heap),
      Event.MinKey Direction.REVERSE_DIRECTION (c.Empty reverse_heap)] := he
  rw [hforward, hreverse] at he'
  rcases List.mem_cons.1 he' with h | h
  · rw [h]
    rfl
  · rw [List.mem_singleton.1 h]
    rfl

/-- C15 (step safety and progress): when seeding leaves both frontiers non-empty, then
after any number of passes, and in the state before line 116, every recorded routing
step was called on a non-empty active frontier and every recorded `MinKey` was read
from a non-empty frontier; and every pass runs at least one routing step. -/
theorem step_safety {Heap : Type} (c : Collaborators Heap) (forward_heap reverse_heap : Heap)
    (hforward : c.Empty forward_heap = false) (hreverse : c.Empty reverse_heap = false) :
    (∀ i t,
      stateAfter c search_space_overlap i (initialState c forward_heap reverse_heap) = some t →
      (∀ d b m w, Event.routingStep d b m w ∈ t.events → b = false) ∧
      (∀ d b, Event.MinKey d b ∈ t.events → b = false)) ∧
    (∀ fuel s, harvest c fuel forward_heap reverse_heap = some s →
      (∀ d b m w, Event.routingStep d b m w ∈ s.events → b = false) ∧
      (∀ d b, Event.MinKey d b ∈ s.events → b = false)) ∧
    (∀ i t t',
      stateAfter c search_space_overlap i (initialState c forward_heap reverse_heap) = some t →
      stateAfter c search_space_overlap (i + 1) (initialState c forward_heap reverse_heap)
        = some t' →
      (stepDirections t.events).length < (stepDirections t'.events).length) := by
  have hinit := initialState_onNonEmpty c forward_heap reverse_heap hforward hreverse
  have hread : ∀ events : List Event, (∀ e ∈ events, e.onNonEmpty = true) →
      (∀ d b m w, Event.routingStep d b m w ∈ events → b = false) ∧
      (∀ d b, Event.MinKey d b ∈ events → b = false) := by
    intro events h
    constructor
    · intro d b m w he
      simpa [Event.onNonEmpty] using h _ he
    · intro d b he
      simpa [Event.onNonEmpty] using h _ he
  refine ⟨?_, ?_, ?_⟩
  · intro i t ht
    exact hread _ (stateAfter_invariant c _ (fun s => ∀ e ∈ s.events, e.onNonEmpty = true)
      (loopBody_onNonEmpty c) i _ t ht hinit)
  · intro fuel s hrun
    obtain ⟨s', hloop, rfl⟩ := harvest_eq_some c _ fuel _ _ s hrun
    exact hread _ (searchLoop_invariant c _ (fun s => ∀ e ∈ s.events, e.onNonEmpty = true)
      (loopBody_onNonEmpty c) fuel _ s' hloop hinit)
  · intro i t t' ht ht'
    obtain ⟨u, hu, hg, rfl⟩ := stateAfter_succ c _ i _ t' ht'
    rw [ht] at hu
    cases hu
    obtain ⟨block, hb, h | ⟨h, _⟩ | ⟨h, _⟩⟩ := loopBody_directions_guard c _ t hg
    · rw [hb, h, List.length_append]
      simp
    · rw [hb, h, List.length_append]
      simp
    · rw [hb, h, List.length_append]
      simp

/-- The run of C15 on list heaps seeded with two entries each: the first pass runs two
steps, and no call of the run is recorded on an empty heap. -/
theorem step_safety_witness :
    ∃ s t t',
      harvest listCollaborators 5 [(1, 1), (2, 2)] [(2, 1), (1, 5)] = some s ∧
      stateAfter listCollaborators search_space_overlap 0
        (initialState listCollaborators [(1, 1), (2, 2)] [(2, 1), (1, 5)]) = some t ∧
      stateAfter listCollaborators search_space_overlap 1
        (initialState listCollaborators [(1, 1), (2, 2)] [(2, 1), (1, 5)]) = some t' ∧
      Event.routingStep Direction.FORWARD_DIRECTION false 1 6 ∈ s.events ∧
      (∀ d b m w, Event.routingStep d b m w ∈ s.events → b = false) ∧
      (∀ d b, Event.MinKey d b ∈ s.events → b = false) ∧
      (stepDirections t.events).length = 0 ∧ (stepDirections t'.events).length = 2 ∧
      (stepDirections t.events).length < (stepDirections t'.events).length :=
  ⟨_, _, _, rfl, rfl, rfl, by decide,
    ((step_safety listCollaborators [(1, 1), (2, 2)] [(2, 1), (1, 5)] rfl rfl).2.1 5 _ rfl).1,
    ((step_safety listCollaborators [(1, 1), (2, 2)] [(2, 1), (1, 5)] rfl rfl).2.1 5 _ rfl).2,
    rfl, rfl,
    (step_safety listCollaborators [(1, 1), (2, 2)] [(2, 1), (1, 5)] rfl rfl).2.2 0 _ _ rfl rfl⟩

/-! ## The candidate list against the meeting vertex -/

theorem dedup_ne_nil_iff (l : List NodeID) : dedup l ≠ [] ↔ l ≠ [] := by
  rw [Ne, Ne, List.eq_nil_iff_forall_not_mem, List.eq_nil_iff_forall_not_mem]
  constructor
  · intro h hl
    exact h (fun x hx => hl x ((mem_dedup l x).1 hx))
  · intro h hl
    exact h (fun x hx => hl x ((mem_dedup l x).2 hx))

/-- When no step resets a set `middle`, a pass keeps: the candidate list is non-empty
exactly when `middle` is set, and it does not contain the sentinel. -/
theorem loopBody_consistent {Heap : Type} (c : Collaborators Heap)
    (hkeep : ∀ d a o m w, m ≠ SPECIAL_NODEID →
      (c.routingStep d a o m w).middle ≠ SPECIAL_NODEID)
    (s : SearchState Heap)
    (hs : (s.candidates ≠ [] ↔ s.middle ≠ SPECIAL_NODEID) ∧ SPECIAL_NODEID ∉ s.candidates) :
    ((loopBody c s).candidates ≠ [] ↔ (loopBody c s).middle ≠ SPECIAL_NODEID) ∧
      SPECIAL_NODEID ∉ (loopBody c s).candidates := by
  have hstay : s.middle ≠ SPECIAL_NODEID → (loopBody c s).middle ≠ SPECIAL_NODEID :=
    loopBody_respects c (fun m _ m' _ => m ≠ SPECIAL_NODEID → m' ≠ SPECIAL_NODEID)
      (fun _ _ h => h) (fun _ _ _ _ _ _ h1 h2 h => h2 (h1 h))
      (fun d a o m w => hkeep d a o m w) s
  by_cases hm : (loopBody c s).middle = SPECIAL_NODEID
  · have hc := loopBody_candidates_of_unset c s hm
    have hsm : s.middle = SPECIAL_NODEID := by
      by_contra h
      exact hstay h hm
    rw [hc]
    refine ⟨?_, hs.2⟩
    constructor
    · intro h
      exact absurd hsm (hs.1.1 h)
    · intro h
      exact absurd hm h
  · have hc := loopBody_candidates c s
    have hp : pushEveryPass [(loopBody c s).middle] = [(loopBody c s).middle] := by
      show (if (loopBody c s).middle ≠ SPECIAL_NODEID then _ else _) = _
      rw [if_pos hm]
      rfl
    rw [hp] at hc
    rw [hc]
    refine ⟨⟨fun _ => hm, fun _ => by simp⟩, ?_⟩
    intro h
    rcases List.mem_append.1 h with h | h
    · exact hs.2 h
    · exact hm (List.mem_singleton.1 h).symm

/-- C16 (candidate/meeting consistency): when no relaxation step resets a set `middle`
to the sentinel, at loop exit the candidate list, raw or deduplicated, is non-empty
exactly when `middle` is set, and after any number of passes and after the
deduplication the candidate list does not contain the sentinel. -/
theorem candidates_consistent {Heap : Type} (c : Collaborators Heap)
    (hkeep : ∀ d a o m w, m ≠ SPECIAL_NODEID →
      (c.routingStep d a o m w).middle ≠ SPECIAL_NODEID)
    (forward_heap reverse_heap : Heap) :
    (∀ fuel s',
      searchLoop c search_space_overlap fuel (initialState c forward_heap reverse_heap)
        = some s' →
      (s'.candidates ≠ [] ↔ s'.middle ≠ SPECIAL_NODEID) ∧
      (dedup s'.candidates ≠ [] ↔ s'.middle ≠ SPECIAL_NODEID) ∧
      SPECIAL_NODEID ∉ dedup s'.candidates) ∧
    (∀ i t,
      stateAfter c search_space_overlap i (initialState c forward_heap reverse_heap) = some t →
      SPECIAL_NODEID ∉ t.candidates) := by
  have hinit : ((initialState c forward_heap reverse_heap).candidates ≠ [] ↔
      (initialState c forward_heap reverse_heap).middle ≠ SPECIAL_NODEID) ∧
      SPECIAL_NODEID ∉ (initialState c forward_heap reverse_heap).candidates := by
    refine ⟨⟨fun h => absurd rfl h, fun h => absurd rfl h⟩, ?_⟩
    intro h
    cases h
  constructor
  · intro fuel s' hloop
    have h := searchLoop_invariant c _
      (fun s => (s.candidates ≠ [] ↔ s.middle ≠ SPECIAL_NODEID) ∧
        SPECIAL_NODEID ∉ s.candidates)
      (loopBody_consistent c hkeep) fuel _ s' hloop hinit
    refine ⟨h.1, ?_, ?_⟩
    · rw [dedup_ne_nil_iff]
      exact h.1
    · rw [mem_dedup]
      exact h.2
  · intro i t ht
    exact (stateAfter_invariant c _
      (fun s => (s.candidates ≠ [] ↔ s.middle ≠ SPECIAL_NODEID) ∧
        SPECIAL_NODEID ∉ s.candidates)
      (loopBody_consistent c hkeep) i _ t ht hinit).2

/-- The step that never reports the sentinel does not reset a set `middle`. -/
theorem properStep_keeps (d : Direction) (a o : ListHeap) (m : NodeID) (w : EdgeWeight)
    (hm : m ≠ SPECIAL_NODEID) :
    (properCollaborators.routingStep d a o m w).middle ≠ SPECIAL_NODEID := by
  show (properStep d a o m w).middle ≠ SPECIAL_NODEID
  unfold properStep
  split_ifs with h
  · exact hm
  · exact h

/-- The run of C16 on list heaps with the step that never reports the sentinel: the
loop exits with `middle` at vertex 2 and the raw candidate list `[2]`. -/
theorem candidates_consistent_witness :
    ∃ s',
      searchLoop properCollaborators search_space_overlap 5
        (initialState properCollaborators [(1, 1), (2, 2)] [(2, 1), (1, 5)]) = some s' ∧
      s'.middle = 2 ∧ s'.candidates = [2] ∧
      (s'.candidates ≠ [] ↔ s'.middle ≠ SPECIAL_NODEID) ∧
      (dedup s'.candidates ≠ [] ↔ s'.middle ≠ SPECIAL_NODEID) ∧
      SPECIAL_NODEID ∉ dedup s'.candidates :=
  ⟨_, rfl, rfl, rfl,
    (candidates_consistent properCollaborators properStep_keeps
      [(1, 1), (2, 2)] [(2, 1), (1, 5)]).1 5 _ rfl⟩

end osrm
